import Mathlib

/-
Shallow embedding of the Paper Wallet / Automated Order Engine of
src/data/wallet.py (class PaperWallet).

Modelling conventions:
* Python floats are idealized as exact rationals (ℚ).  The spec itself
  states its numeric properties "within floating tolerance"; all the
  algebra below is exact.  Consequently the float literals 0.1, 0.5 and
  1e-8 of the source are the exact rationals 1/10, 1/2 and 1/10^8.
* Python strings are lists of characters (Symb := List Char).
* The positions dict is an association list with dict-update semantics
  (replace in place if the key is present, append otherwise).
* File persistence (_load_wallet/_save_wallet) and the wall-clock
  timestamp of _record_trade are I/O and are not modelled; _save_wallet
  is a no-op on the in-memory state, which is what all claims are about.
  The decimal re-formatting of the recorded amount/total in _record_trade
  (f-string rounding of binary floats) is likewise not modelled: history
  entries keep the exact traded values.
* Rational division is total in Lean (x / 0 = 0) whereas Python raises
  ZeroDivisionError.  All claim-relevant paths have nonzero denominators
  (this is exactly what claim C9 proves).
-/

abbrev Symb : Type := List Char

/-- Position record as stored in data["positions"][symbol].  A fresh
position dict in the source only has the four numeric keys; the
remaining keys are read with .get defaults None/[] which the Option/List
defaults here mirror. -/
structure Position where
  amount : ℚ := 0
  avg_price : ℚ := 0
  highest_price : ℚ := 0
  lowest_price : ℚ := 0
  stop_loss : Option ℚ := Option.none
  take_profit : Option ℚ := Option.none
  trailing_stop_percent : Option ℚ := Option.none
  scaling_targets : List ℚ := []
deriving DecidableEq, Repr

/-- Trade type recorded in history ("BUY" / "SELL"). -/
inductive TType where
  | buy
  | sell
deriving DecidableEq, Repr

/-- History entry appended by _record_trade (timestamp not modelled). -/
structure Trade where
  pair : Symb
  t_type : TType
  price : ℚ
  amount : ℚ
  total_usd : ℚ
deriving DecidableEq, Repr

/-- The wallet state self.data. -/
structure Wallet where
  initial_balance : ℚ
  balance_usd : ℚ
  positions : List (Symb × Position)
  history : List Trade
deriving DecidableEq, Repr

/-- Dict lookup: positions.get(symbol). -/
def lookupPos (ps : List (Symb × Position)) (s : Symb) : Option Position :=
  match ps with
  | [] => Option.none
  | (k, v) :: rest => if k = s then some v else lookupPos rest s

/-- Dict update positions[symbol] = pos (replace in place, else append). -/
def setPos (ps : List (Symb × Position)) (s : Symb) (v : Position) :
    List (Symb × Position) :=
  match ps with
  | [] => [(s, v)]
  | (k, w) :: rest => if k = s then (k, v) :: rest else (k, w) :: setPos rest s v

/-- Dust threshold 1e-8 used throughout wallet.py. -/
def dust : ℚ := 1 / 100000000

/-- Fresh position dict {"amount": 0.0, "avg_price": 0.0,
"highest_price": price, "lowest_price": price} built by buy/sell when
the symbol is unseen or the stored amount is dust. -/
def freshPos (price : ℚ) : Position :=
  { amount := 0, avg_price := 0, highest_price := price, lowest_price := price }

/-- The is_new_pos logic shared by buy and sell (wallet.py lines
125-130 and 155-160): reinitialize when the symbol is absent or the
stored amount has magnitude below 1e-8.  Returns (pos, is_new_pos). -/
def effPos (w : Wallet) (symbol : Symb) (price : ℚ) : Position × Bool :=
  match lookupPos w.positions symbol with
  | Option.none => (freshPos price, true)
  | some p => if |p.amount| < dust then (freshPos price, true) else (p, false)

/-- Result message of the trade primitives (string formatting not
modelled, only which message is produced and with what data). -/
inductive TradeMsg where
  | insufficientBalance
  | bought (amount : ℚ) (symbol : Symb)
  | sold (amount : ℚ) (symbol : Symb)
deriving DecidableEq, Repr

/-- History append of _record_trade. -/
def recordTrade (w : Wallet) (symbol : Symb) (t : TType)
    (price amount usd_value : ℚ) : Wallet :=
  { w with history := w.history ++
      [{ pair := symbol, t_type := t, price := price, amount := amount,
         total_usd := usd_value }] }

/-- PaperWallet.buy (wallet.py lines 121-149). -/
def buy (w : Wallet) (symbol : Symb) (price amount : ℚ) :
    Bool × TradeMsg × Wallet :=
  let usd_value := amount * price
  let pe := effPos w symbol price
  let pos := pe.1
  let is_new_pos := pe.2
  if pos.amount ≥ 0 ∧ usd_value > w.balance_usd then
    (false, TradeMsg.insufficientBalance, w)
  else
    let w1 := { w with balance_usd := w.balance_usd - usd_value }
    let pos' :=
      if pos.amount ≥ 0 then
        let total_amount := pos.amount + amount
        { pos with
          avg_price := (pos.amount * pos.avg_price + amount * price) / total_amount,
          amount := total_amount,
          highest_price := if is_new_pos then price else max pos.highest_price price }
      else
        { pos with amount := pos.amount + amount }
    let w2 := { w1 with positions := setPos w1.positions symbol pos' }
    (true, TradeMsg.bought amount symbol,
      recordTrade w2 symbol TType.buy price amount usd_value)

/-- PaperWallet.sell (wallet.py lines 151-176). -/
def sell (w : Wallet) (symbol : Symb) (price amount : ℚ) :
    Bool × TradeMsg × Wallet :=
  let usd_value := amount * price
  let pe := effPos w symbol price
  let pos := pe.1
  let is_new_pos := pe.2
  let w1 := { w with balance_usd := w.balance_usd + usd_value }
  let pos' :=
    if pos.amount ≤ 0 then
      let total_amount := pos.amount - amount
      { pos with
        avg_price := (|pos.amount| * pos.avg_price + amount * price) / |total_amount|,
        amount := total_amount,
        lowest_price := if is_new_pos then price else min pos.lowest_price price }
    else
      { pos with amount := pos.amount - amount }
  let w2 := { w1 with positions := setPos w1.positions symbol pos' }
  (true, TradeMsg.sold amount symbol,
    recordTrade w2 symbol TType.sell price amount usd_value)

/-- PaperWallet.close_position (wallet.py lines 233-251).  In Python a
missing symbol would raise KeyError on line 234; every call site in the
source (and every use below) has the symbol present, so that case is
modelled as a no-op. -/
def close_position (w : Wallet) (symbol : Symb) (current_price : ℚ) :
    Option (Bool × TradeMsg) × Wallet :=
  match lookupPos w.positions symbol with
  | Option.none => (Option.none, w)
  | some p =>
    let res :=
      if p.amount > 0 then sell w symbol current_price p.amount
      else buy w symbol current_price |p.amount|
    let w' := res.2.2
    let w'' :=
      match lookupPos w'.positions symbol with
      | Option.none => w'
      | some q =>
        let q' : Position :=
          { q with stop_loss := Option.none, take_profit := Option.none,
                   trailing_stop_percent := Option.none,
                   scaling_targets := [], amount := 0 }
        { w' with positions := setPos w'.positions symbol q' }
    (some (res.1, res.2.1), w'')

/-- Messages returned by check_automated_orders (the formatted price is
carried as data; emoji/format text is not modelled). -/
inductive OrderMsg where
  | stopLoss (price : ℚ)
  | takeProfit (price : ℚ)
  | trailingStop (price : ℚ)
  | scaledOut (price : ℚ)
deriving DecidableEq, Repr

/-- Step 1 of check_automated_orders: watermark update (lines 186-187). -/
def watermarkUpd (pos : Position) (current_price : ℚ) : Position :=
  if pos.amount > 0 then
    { pos with highest_price := max pos.highest_price current_price }
  else
    { pos with lowest_price := min pos.lowest_price current_price }

/-- Step 2 guard: Python truthiness of pos.get("stop_loss") together with
the price condition (lines 190-192). -/
def slFires (pos : Position) (current_price : ℚ) : Bool :=
  match pos.stop_loss with
  | Option.none => false
  | some sl =>
    sl ≠ 0 ∧ ((pos.amount > 0 ∧ current_price ≤ sl) ∨
              (pos.amount < 0 ∧ current_price ≥ sl))

/-- Step 3 guard: take profit (lines 197-199). -/
def tpFires (pos : Position) (current_price : ℚ) : Bool :=
  match pos.take_profit with
  | Option.none => false
  | some tp =>
    tp ≠ 0 ∧ ((pos.amount > 0 ∧ current_price ≥ tp) ∨
              (pos.amount < 0 ∧ current_price ≤ tp))

/-- Step 4 guard: trailing stop against the (already updated) watermark
(lines 204-215). -/
def tslFires (pos : Position) (current_price : ℚ) : Bool :=
  match pos.trailing_stop_percent with
  | Option.none => false
  | some t =>
    t ≠ 0 ∧ (if pos.amount > 0 then
               current_price ≤ pos.highest_price * (1 - t / 100)
             else
               current_price ≥ pos.lowest_price * (1 + t / 100))

/-- Condition of the scaling-target loop body (line 221). -/
def targetMatches (amount current_price target : ℚ) : Bool :=
  (amount > 0 ∧ current_price ≥ target) ∨ (amount < 0 ∧ current_price ≤ target)

/-- The target the for-loop of lines 220-228 fires on: the first element
of scaling_targets whose condition holds. -/
def firstTarget (amount current_price : ℚ) (targets : List ℚ) : Option ℚ :=
  targets.find? (targetMatches amount current_price)

/-- Scaling-out action of lines 222-228: close 50% of the remaining
magnitude via the opposite-direction engine call, then remove the fired
target from the list of the (freshly re-read) position. -/
def scaleOutWallet (w1 : Wallet) (symbol : Symb) (current_price : ℚ)
    (pos : Position) (target : ℚ) : Wallet :=
  let sell_amount := |pos.amount| * (1 / 2)
  let w2 := if pos.amount > 0 then (sell w1 symbol current_price sell_amount).2.2
            else (buy w1 symbol current_price sell_amount).2.2
  match lookupPos w2.positions symbol with
  | Option.none => w2
  | some q =>
    let q' : Position := { q with scaling_targets := q.scaling_targets.erase target }
    { w2 with positions := setPos w2.positions symbol q' }

/-- PaperWallet.check_automated_orders (wallet.py lines 178-231). -/
def check_automated_orders (w : Wallet) (symbol : Symb) (current_price : ℚ) :
    Option OrderMsg × Wallet :=
  match lookupPos w.positions symbol with
  | Option.none => (Option.none, w)
  | some pos0 =>
    if |pos0.amount| < dust then (Option.none, w)
    else
      let pos := watermarkUpd pos0 current_price
      let w1 := { w with positions := setPos w.positions symbol pos }
      if slFires pos current_price then
        (some (OrderMsg.stopLoss current_price), (close_position w1 symbol current_price).2)
      else if tpFires pos current_price then
        (some (OrderMsg.takeProfit current_price), (close_position w1 symbol current_price).2)
      else if tslFires pos current_price then
        (some (OrderMsg.trailingStop current_price), (close_position w1 symbol current_price).2)
      else
        match firstTarget pos.amount current_price pos.scaling_targets with
        | some target =>
          (some (OrderMsg.scaledOut current_price),
            scaleOutWallet w1 symbol current_price pos target)
        | Option.none => (Option.none, w1)

/-- PaperWallet.get_position (wallet.py lines 54-56). -/
def get_position (w : Wallet) (symbol : Symb) : ℚ :=
  ((lookupPos w.positions (symbol.filter (fun c => c ≠ '/'))).getD
    { amount := 0 }).amount

/-- The default fresh wallet state of _load_wallet (lines 38-43). -/
def defaultWallet : Wallet :=
  { initial_balance := 10000, balance_usd := 10000, positions := [], history := [] }

/-- Concrete symbol constants used in witnesses and counterexamples. -/
def symBTC : Symb := "BTCUSDT".data

def symX : Symb := "X".data

/-- Helper: looking up the key just written always yields the new value. -/
theorem lookupPos_setPos_self (ps : List (Symb × Position)) (s : Symb)
    (v : Position) : lookupPos (setPos ps s v) s = some v := by
  induction ps with
  | nil => simp [setPos, lookupPos]
  | cons kv rest ih =>
    obtain ⟨k, q⟩ := kv
    by_cases h : k = s <;> simp [setPos, lookupPos, h, ih]

/-- Claim-side rendering of the flat-or-long condition as C3 states it:
the symbol is unseen or the stored amount is nonnegative. -/
def flatOrLongStored (w : Wallet) (s : Symb) : Bool :=
  (lookupPos w.positions s).all (fun q => decide (q.amount ≥ 0))

/-- Code-side flat-or-long condition: unseen, dust, or nonnegative
stored amount; equivalent to the guard of wallet.py line 132 on the
reinitialized position. -/
def flatOrLongEffective (w : Wallet) (s : Symb) : Bool :=
  (lookupPos w.positions s).all
    (fun q => decide (|q.amount| < dust ∨ q.amount ≥ 0))

/-- C1: after a successful buy the cash balance is debited by exactly
amount*price, and after any sell it is credited by exactly amount*price,
independent of the branch taken inside the primitive. -/
theorem buy_sell_cash_conservation :
    (∀ (w : Wallet) (s : Symb) (p a : ℚ) (m : TradeMsg) (w' : Wallet),
        buy w s p a = (true, m, w') →
        w'.balance_usd = w.balance_usd - a * p) ∧
    (∀ (w : Wallet) (s : Symb) (p a : ℚ),
        (sell w s p a).2.2.balance_usd = w.balance_usd + a * p) := by
  constructor
  · intro w s p a m w' h
    simp only [buy] at h
    split at h
    · exact absurd (congrArg Prod.fst h) (by simp)
    · have hw : w' = recordTrade _ s TType.buy p a (a * p) :=
        (congrArg (fun t => t.2.2) h).symm
      subst hw
      simp [recordTrade]
  · intro w s p a
    simp [sell, recordTrade]

/-- Helper: a triple whose first component is known is its own eta
expansion. -/
theorem triple_eta {α β γ : Type} (x : α × β × γ) (a : α) (h : x.1 = a) :
    x = (a, x.2.1, x.2.2) := by
  obtain ⟨x1, x2, x3⟩ := x
  simpa using h

/-- Witness for C1 at the concrete scenario of the spec (buy 0.1 BTC at
50000 from the fresh wallet). -/
theorem buy_sell_cash_conservation_witness :
    (buy defaultWallet symBTC 50000 (1 / 10)).2.2.balance_usd =
      defaultWallet.balance_usd - (1 / 10) * 50000 :=
  buy_sell_cash_conservation.1 defaultWallet symBTC 50000 (1 / 10)
    (buy defaultWallet symBTC 50000 (1 / 10)).2.1
    (buy defaultWallet symBTC 50000 (1 / 10)).2.2
    (triple_eta _ _ (by norm_num [buy, effPos, defaultWallet, lookupPos]))

/-- Dust-sized short position used to refute C3 as literally stated. -/
def dustShortPos : Position :=
  { amount := -(1 / 1000000000), avg_price := 100,
    highest_price := 100, lowest_price := 100 }

/-- Wallet holding a dust short with zero cash. -/
def wShortDust : Wallet :=
  { initial_balance := 10000, balance_usd := 0,
    positions := [(symX, dustShortPos)], history := [] }

/-- C3 counterexample: the claim says buy fails only when the stored
position is flat-or-long (amount ≥ 0) or the symbol is unseen; on a
stored short of dust size (amount = -1e-9 < 0) with insufficient cash,
buy nevertheless fails, because the dust position is reinitialized to a
flat one before the balance check. -/
theorem buy_failure_claim_counterexample :
    ¬ (((buy wShortDust symX 1 1).1 = false) ↔
        (flatOrLongStored wShortDust symX = true ∧
          1 * 1 > wShortDust.balance_usd)) := by
  have h1 : (buy wShortDust symX 1 1).1 = false := by
    norm_num [buy, effPos, lookupPos, wShortDust, dustShortPos, dust,
      freshPos, abs]
  have h2 : flatOrLongStored wShortDust symX = false := by
    norm_num [flatOrLongStored, lookupPos, wShortDust, dustShortPos]
  intro hiff
  rcases hiff.mp h1 with ⟨hf, _⟩
  rw [h2] at hf
  exact Bool.false_ne_true hf

/-- C3 (amended): for positive price and amount, buy fails iff the
position effectively on the books is flat-or-long after dust
reinitialization — the symbol is unseen, or the stored amount has
magnitude below 1e-8, or it is nonnegative — and amount*price exceeds
the cash balance; on that failure the wallet is returned unchanged
(balance, positions and history included); sell always succeeds. -/
theorem buy_failure_iff_sell_total (w : Wallet) (s : Symb) (p a : ℚ)
    (hp : 0 < p) (ha : 0 < a) :
    ((buy w s p a).1 = false ↔
      (flatOrLongEffective w s = true ∧ a * p > w.balance_usd)) ∧
    ((buy w s p a).1 = false →
      buy w s p a = (false, TradeMsg.insufficientBalance, w)) ∧
    (sell w s p a).1 = true := by
  have key : (effPos w s p).1.amount ≥ 0 ↔ flatOrLongEffective w s = true := by
    unfold effPos flatOrLongEffective
    cases hl : lookupPos w.positions s with
    | none => simp [freshPos]
    | some q =>
      by_cases hd : |q.amount| < dust
      · simp [hd, freshPos, Option.all]
      · simp [hd, Option.all]
  have hpos : ((effPos w s p).1.amount ≥ 0 ∧ a * p > w.balance_usd) →
      buy w s p a = (false, TradeMsg.insufficientBalance, w) := by
    intro hc
    simp only [buy]
    rw [if_pos hc]
  have hneg : ¬ ((effPos w s p).1.amount ≥ 0 ∧ a * p > w.balance_usd) →
      (buy w s p a).1 = true := by
    intro hc
    simp only [buy]
    rw [if_neg hc]
  refine ⟨⟨?_, ?_⟩, ?_, ?_⟩
  · intro hf
    by_cases hc : (effPos w s p).1.amount ≥ 0 ∧ a * p > w.balance_usd
    · exact ⟨key.mp hc.1, hc.2⟩
    · have ht := hneg hc
      rw [hf] at ht
      exact absurd ht (by simp)
  · rintro ⟨hfl, hgt⟩
    rw [hpos ⟨key.mpr hfl, hgt⟩]
  · intro hf
    by_cases hc : (effPos w s p).1.amount ≥ 0 ∧ a * p > w.balance_usd
    · exact hpos hc
    · have ht := hneg hc
      rw [hf] at ht
      exact absurd ht (by simp)
  · simp [sell]

/-- Witness for the amended C3: buying 1 BTC at 50000 from the fresh
10000-balance wallet fails with no mutation. -/
theorem buy_failure_iff_sell_total_witness :
    buy defaultWallet symBTC 50000 1 =
      (false, TradeMsg.insufficientBalance, defaultWallet) :=
  (buy_failure_iff_sell_total defaultWallet symBTC 50000 1 (by norm_num)
      (by norm_num)).2.1
    (by norm_num [buy, effPos, defaultWallet, lookupPos, freshPos])

/-- C9: with amount > 0, the denominator old_amount+amount of the
weighted average in the flat-or-long branch of buy is strictly
positive, the denominator abs(old_amount-amount) in the flat-or-short
branch of sell is strictly positive, and with amount = 0 on a flat
position the buy denominator is exactly zero. -/
theorem weighted_average_denominators (w : Wallet) (s : Symb) (p a : ℚ)
    (ha : 0 < a) :
    ((effPos w s p).1.amount ≥ 0 → (effPos w s p).1.amount + a > 0) ∧
    ((effPos w s p).1.amount ≤ 0 → |(effPos w s p).1.amount - a| > 0) ∧
    (effPos defaultWallet symBTC 100).1.amount + 0 = 0 := by
  refine ⟨fun h => by linarith, fun h => ?_, ?_⟩
  · have hlt : (effPos w s p).1.amount - a < 0 := by linarith
    exact abs_pos.mpr (ne_of_lt hlt)
  · norm_num [effPos, defaultWallet, lookupPos, freshPos]

/-- Witness for C9 on the fresh wallet with a unit buy. -/
theorem weighted_average_denominators_witness :
    (effPos defaultWallet symBTC 100).1.amount + 1 > 0 :=
  (weighted_average_denominators defaultWallet symBTC 100 1 (by norm_num)).1
    (by norm_num [effPos, defaultWallet, lookupPos, freshPos])

/-- Sequence of buys, each of which must succeed (None if any fails). -/
def applyBuys (w : Wallet) (s : Symb) : List (ℚ × ℚ) → Option Wallet
  | [] => some w
  | (p, a) :: rest =>
    match buy w s p a with
    | (true, _, w') => applyBuys w' s rest
    | (false, _, _) => Option.none

/-- Sum of the amounts of a (price, amount) list. -/
def sumAmounts (l : List (ℚ × ℚ)) : ℚ := (l.map (fun pa => pa.2)).sum

/-- Sum of price*amount of a (price, amount) list. -/
def sumCosts (l : List (ℚ × ℚ)) : ℚ := (l.map (fun pa => pa.1 * pa.2)).sum

/-- Amount of the position a buy sequence leaves on the books. -/
def finalAmountAfterBuys (w : Wallet) (s : Symb) (l : List (ℚ × ℚ)) :
    Option ℚ :=
  (applyBuys w s l).bind
    (fun w' => (lookupPos w'.positions s).map Position.amount)

/-- Helper: a successful buy on an existing long of at least dust size
updates the position by the weighted-average rule. -/
theorem buy_long_step (w : Wallet) (s : Symb) (p a : ℚ) (q : Position)
    (hl : lookupPos w.positions s = some q) (hq : dust ≤ q.amount)
    (hsucc : (buy w s p a).1 = true) :
    lookupPos (buy w s p a).2.2.positions s = some
      { q with
        avg_price := (q.amount * q.avg_price + a * p) / (q.amount + a),
        amount := q.amount + a,
        highest_price := max q.highest_price p } := by
  have hq0 : (0 : ℚ) < q.amount := lt_of_lt_of_le (by norm_num [dust]) hq
  have habs : ¬ (|q.amount| < dust) := by
    rw [abs_of_pos hq0]
    exact not_lt.mpr hq
  have heff : effPos w s p = (q, false) := by
    simp only [effPos, hl]
    rw [if_neg habs]
  by_cases hc : q.amount ≥ 0 ∧ a * p > w.balance_usd
  · exfalso
    simp only [buy, heff] at hsucc
    rw [if_pos hc] at hsucc
    exact Bool.false_ne_true hsucc
  · simp only [buy, heff]
    rw [if_neg hc]
    simp [recordTrade, lookupPos_setPos_self, le_of_lt hq0]

/-- Helper: a successful buy on a flat-or-unseen symbol opens a fresh
position at the trade price. -/
theorem buy_open_step (w : Wallet) (s : Symb) (p a : ℚ) (ha : 0 < a)
    (hflat : ∀ q, lookupPos w.positions s = some q → |q.amount| < dust)
    (hsucc : (buy w s p a).1 = true) :
    lookupPos (buy w s p a).2.2.positions s = some
      { amount := a, avg_price := p, highest_price := p, lowest_price := p } := by
  have heff : effPos w s p = (freshPos p, true) := by
    cases hl : lookupPos w.positions s with
    | none => simp only [effPos, hl]
    | some q =>
      simp only [effPos, hl]
      rw [if_pos (hflat q hl)]
  by_cases hc : (freshPos p).amount ≥ 0 ∧ a * p > w.balance_usd
  · exfalso
    simp only [buy, heff] at hsucc
    rw [if_pos hc] at hsucc
    exact Bool.false_ne_true hsucc
  · simp only [buy, heff]
    rw [if_neg hc]
    have hfge : (freshPos p).amount ≥ 0 := by norm_num [freshPos]
    rw [if_pos hfge]
    simp only [recordTrade, lookupPos_setPos_self]
    have h1 : (freshPos p).amount + a = a := by norm_num [freshPos]
    have h2 : ((freshPos p).amount * (freshPos p).avg_price + a * p) /
        ((freshPos p).amount + a) = p := by
      norm_num [freshPos]
      exact mul_div_cancel_left₀ p (ne_of_gt ha)
    simp [freshPos, Position.mk.injEq, h1, h2]
    exact mul_div_cancel_left₀ p (ne_of_gt ha)

/-- Helper: invariant of applyBuys over an existing long position of at
least dust size: the amount accumulates and amount*avg accumulates the
dollar cost. -/
theorem applyBuys_invariant (s : Symb) :
    ∀ (l : List (ℚ × ℚ)) (w w' : Wallet) (q : Position),
    (∀ pa ∈ l, 0 < pa.1 ∧ 0 < pa.2) →
    lookupPos w.positions s = some q → dust ≤ q.amount →
    applyBuys w s l = some w' →
    ∃ q', lookupPos w'.positions s = some q' ∧
      q'.amount = q.amount + sumAmounts l ∧
      q'.amount * q'.avg_price = q.amount * q.avg_price + sumCosts l := by
  intro l
  induction l with
  | nil =>
    intro w w' q _ hl _ happ
    refine ⟨q, ?_, by norm_num [sumAmounts], by norm_num [sumCosts]⟩
    obtain rfl : w = w' := by simpa [applyBuys] using happ
    exact hl
  | cons pa rest ih =>
    intro w w' q hpos hl hq happ
    obtain ⟨p, a⟩ := pa
    have hpa := hpos (p, a) (List.mem_cons_self _ _)
    have ha : 0 < a := hpa.2
    simp only [applyBuys] at happ
    cases hbuy : buy w s p a with
    | mk ok rest2 =>
      obtain ⟨m, w1⟩ := rest2
      rw [hbuy] at happ
      cases ok with
      | false => exact absurd happ (by simp)
      | true =>
        have hsucc : (buy w s p a).1 = true := by rw [hbuy]
        have hstep := buy_long_step w s p a q hl hq hsucc
        rw [hbuy] at hstep
        have hq' : dust ≤ q.amount + a := le_trans hq (by linarith)
        have hrec : applyBuys w1 s rest = some w' := happ
        obtain ⟨q', hq'l, hamt, hcost⟩ :=
          ih w1 w' _ (fun x hx => hpos x (List.mem_cons_of_mem _ hx))
            hstep hq' hrec
        refine ⟨q', hq'l, ?_, ?_⟩
        · rw [hamt]
          simp [sumAmounts]
          ring
        · rw [hcost]
          have hden : q.amount + a ≠ 0 := by
            have : (0 : ℚ) < q.amount := lt_of_lt_of_le (by norm_num [dust]) hq
            linarith
          simp only [sumCosts, List.map_cons, List.sum_cons]
          field_simp
          ring

/-- Buy sequence refuting C2 as stated: a first buy of 1e-9 (positive
but below the 1e-8 dust threshold) followed by a buy of 1. -/
def buysDust : List (ℚ × ℚ) := [(1, 1 / 1000000000), (2, 1)]

/-- C2 counterexample: on the fresh (flat) wallet, all prices and
amounts of buysDust are positive and every buy succeeds, yet the final
position amount is 1, not sum(ai) = 1 + 1e-9: the second buy
reinitializes the dust position and drops the first buy. -/
theorem buy_sequence_claim_counterexample :
    finalAmountAfterBuys defaultWallet symX buysDust = some 1 ∧
    sumAmounts buysDust ≠ 1 ∧
    (∀ pa ∈ buysDust, 0 < pa.1 ∧ 0 < pa.2) ∧
    lookupPos defaultWallet.positions symX = Option.none := by
  refine ⟨?_, by norm_num [sumAmounts, buysDust], ?_, by norm_num [defaultWallet, lookupPos]⟩
  · norm_num [finalAmountAfterBuys, applyBuys, buy, effPos, lookupPos,
      defaultWallet, freshPos, dust, setPos, recordTrade, buysDust, abs]
  · intro pa hpa
    simp only [buysDust, List.mem_cons, List.not_mem_nil, or_false] at hpa
    rcases hpa with h | h <;> rw [h] <;> norm_num

/-- C2 (amended): for every sequence of successful buys at positive
prices and amounts on an initially flat-or-unseen symbol, provided the
first amount is at least the dust threshold 1e-8, the resulting
position has amount sum(ai) and avg_price sum(pi*ai)/sum(ai). -/
theorem buy_sequence_weighted_average (w : Wallet) (s : Symb)
    (p1 a1 : ℚ) (rest : List (ℚ × ℚ)) (w' : Wallet)
    (hflat : ∀ q, lookupPos w.positions s = some q → |q.amount| < dust)
    (hpos : ∀ pa ∈ (p1, a1) :: rest, 0 < pa.1 ∧ 0 < pa.2)
    (ha1 : dust ≤ a1)
    (happ : applyBuys w s ((p1, a1) :: rest) = some w') :
    ∃ q', lookupPos w'.positions s = some q' ∧
      q'.amount = sumAmounts ((p1, a1) :: rest) ∧
      q'.avg_price = sumCosts ((p1, a1) :: rest) / sumAmounts ((p1, a1) :: rest) := by
  have ha1' : (0 : ℚ) < a1 := lt_of_lt_of_le (by norm_num [dust]) ha1
  simp only [applyBuys] at happ
  cases hbuy : buy w s p1 a1 with
  | mk ok rest2 =>
    obtain ⟨m, w1⟩ := rest2
    rw [hbuy] at happ
    cases ok with
    | false => exact absurd happ (by simp)
    | true =>
      have hsucc : (buy w s p1 a1).1 = true := by rw [hbuy]
      have hstep := buy_open_step w s p1 a1 ha1' hflat hsucc
      rw [hbuy] at hstep
      obtain ⟨q', hq'l, hamt, hcost⟩ :=
        applyBuys_invariant s rest w1 w'
          { amount := a1, avg_price := p1, highest_price := p1, lowest_price := p1 }
          (fun x hx => hpos x (List.mem_cons_of_mem _ hx)) hstep ha1 happ
      have hrest_nonneg : 0 ≤ sumAmounts rest := by
        apply List.sum_nonneg
        intro x hx
        simp only [List.mem_map] at hx
        obtain ⟨pa, hpa, rfl⟩ := hx
        exact le_of_lt (hpos pa (List.mem_cons_of_mem _ hpa)).2
      have hamt' : q'.amount = sumAmounts ((p1, a1) :: rest) := by
        rw [hamt]
        simp [sumAmounts]
      have hne : q'.amount ≠ 0 := by
        rw [hamt]
        simp only [sumAmounts] at hrest_nonneg ⊢
        linarith
      refine ⟨q', hq'l, hamt', ?_⟩
      rw [← hamt']
      rw [eq_div_iff hne]
      calc q'.avg_price * q'.amount = q'.amount * q'.avg_price := by ring
        _ = a1 * p1 + sumCosts rest := by
            rw [hcost]
        _ = sumCosts ((p1, a1) :: rest) := by
            simp [sumCosts]
            ring

/-- Witness for the amended C2 at the spec scenario: buys of 0.1 at
40000 then 0.1 at 60000 on the fresh wallet give avg 50000, amount 0.2. -/
theorem buy_sequence_weighted_average_witness :
    ∃ q', lookupPos
        (((applyBuys defaultWallet symBTC [(40000, 1 / 10), (60000, 1 / 10)]).getD
          defaultWallet)).positions symBTC = some q' ∧
      q'.amount = sumAmounts [((40000 : ℚ), (1 : ℚ) / 10), (60000, 1 / 10)] ∧
      q'.avg_price = sumCosts [((40000 : ℚ), (1 : ℚ) / 10), (60000, 1 / 10)] /
        sumAmounts [((40000 : ℚ), (1 : ℚ) / 10), (60000, 1 / 10)] :=
  buy_sequence_weighted_average defaultWallet symBTC 40000 (1 / 10)
    [(60000, 1 / 10)]
    ((applyBuys defaultWallet symBTC [(40000, 1 / 10), (60000, 1 / 10)]).getD
      defaultWallet)
    (by
      intro q h
      simp [defaultWallet, lookupPos] at h)
    (by
      intro pa hpa
      simp only [List.mem_cons, List.not_mem_nil, or_false] at hpa
      rcases hpa with h | h <;> rw [h] <;> norm_num)
    (by norm_num [dust])
    (by norm_num [applyBuys, buy, effPos, lookupPos, defaultWallet, freshPos,
      dust, setPos, recordTrade, abs])

/-- Helper: sell always credits the balance by amount*price. -/
theorem sell_balance (w : Wallet) (s : Symb) (p a : ℚ) :
    (sell w s p a).2.2.balance_usd = w.balance_usd + a * p := by
  simp [sell, recordTrade]

/-- Helper: a buy whose guard is not taken succeeds. -/
theorem buy_success_of_not_guard (w : Wallet) (s : Symb) (p a : ℚ)
    (hc : ¬ ((effPos w s p).1.amount ≥ 0 ∧ a * p > w.balance_usd)) :
    (buy w s p a).1 = true := by
  simp only [buy]
  rw [if_neg hc]

/-- Helper: a successful buy debits the balance by amount*price. -/
theorem buy_balance_success (w : Wallet) (s : Symb) (p a : ℚ)
    (h : (buy w s p a).1 = true) :
    (buy w s p a).2.2.balance_usd = w.balance_usd - a * p := by
  by_cases hc : (effPos w s p).1.amount ≥ 0 ∧ a * p > w.balance_usd
  · exfalso
    simp only [buy] at h
    rw [if_pos hc] at h
    exact Bool.false_ne_true h
  · simp only [buy]
    rw [if_neg hc]
    simp [recordTrade]

/-- Helper: after a sell the symbol is always present in the book. -/
theorem sell_sets_position (w : Wallet) (s : Symb) (p a : ℚ) :
    ∃ r, lookupPos (sell w s p a).2.2.positions s = some r := by
  simp only [sell, recordTrade]
  exact ⟨_, lookupPos_setPos_self _ _ _⟩

/-- Helper: buying to cover an existing non-dust short always succeeds,
debits cash, and adds the amount to the (negative) position without
touching the average. -/
theorem buy_cover_step (w : Wallet) (s : Symb) (p a : ℚ) (q : Position)
    (hl : lookupPos w.positions s = some q) (hnd : ¬ |q.amount| < dust)
    (hqneg : q.amount < 0) :
    (buy w s p a).1 = true ∧
    (buy w s p a).2.2.balance_usd = w.balance_usd - a * p ∧
    lookupPos (buy w s p a).2.2.positions s = some { q with amount := q.amount + a } := by
  have heff : effPos w s p = (q, false) := by
    simp only [effPos, hl]
    rw [if_neg hnd]
  have hc : ¬ (q.amount ≥ 0 ∧ a * p > w.balance_usd) := by
    intro h
    exact absurd h.1 (not_le.mpr hqneg)
  have hcq : ¬ ((effPos w s p).1.amount ≥ 0 ∧ a * p > w.balance_usd) := by
    rw [heff]
    exact hc
  refine ⟨buy_success_of_not_guard w s p a hcq, ?_, ?_⟩
  · exact buy_balance_success w s p a (buy_success_of_not_guard w s p a hcq)
  · simp only [buy, heff]
    rw [if_neg hc, if_neg (not_le.mpr hqneg)]
    simp [recordTrade, lookupPos_setPos_self]

/-- Helper: evaluation of close_position on a long position. -/
theorem close_position_eval_long (w : Wallet) (s : Symb) (p : ℚ)
    (q r : Position) (hl : lookupPos w.positions s = some q)
    (hq : q.amount > 0)
    (hr : lookupPos (sell w s p q.amount).2.2.positions s = some r) :
    (close_position w s p).2 =
      { (sell w s p q.amount).2.2 with
        positions := setPos (sell w s p q.amount).2.2.positions s
          { r with stop_loss := Option.none, take_profit := Option.none,
                   trailing_stop_percent := Option.none,
                   scaling_targets := [], amount := 0 } } := by
  simp only [close_position, hl, if_pos hq, hr]

/-- Helper: evaluation of close_position on a short-or-flat position. -/
theorem close_position_eval_short (w : Wallet) (s : Symb) (p : ℚ)
    (q r : Position) (hl : lookupPos w.positions s = some q)
    (hq : ¬ q.amount > 0)
    (hr : lookupPos (buy w s p |q.amount|).2.2.positions s = some r) :
    (close_position w s p).2 =
      { (buy w s p |q.amount|).2.2 with
        positions := setPos (buy w s p |q.amount|).2.2.positions s
          { r with stop_loss := Option.none, take_profit := Option.none,
                   trailing_stop_percent := Option.none,
                   scaling_targets := [], amount := 0 } } := by
  simp only [close_position, hl, if_neg hq, hr]

/-- Helper: a sell on a flat-or-unseen symbol opens a fresh short at the
trade price. -/
theorem sell_open_step (w : Wallet) (s : Symb) (p a : ℚ) (ha : 0 < a)
    (hflat : ∀ q, lookupPos w.positions s = some q → |q.amount| < dust) :
    lookupPos (sell w s p a).2.2.positions s = some
      { amount := -a, avg_price := p, highest_price := p, lowest_price := p } := by
  have heff : effPos w s p = (freshPos p, true) := by
    cases hl : lookupPos w.positions s with
    | none => simp only [effPos, hl]
    | some q =>
      simp only [effPos, hl]
      rw [if_pos (hflat q hl)]
  simp only [sell, heff]
  rw [if_pos (show (freshPos p).amount ≤ 0 by norm_num [freshPos])]
  simp only [recordTrade, lookupPos_setPos_self]
  have h2 : (|(freshPos p).amount| * (freshPos p).avg_price + a * p) /
      |(freshPos p).amount - a| = p := by
    norm_num [freshPos]
    rw [abs_of_pos ha]
    exact mul_div_cancel_left₀ p (ne_of_gt ha)
  simp [freshPos, Position.mk.injEq, h2]
  norm_num [freshPos] at h2
  exact h2

/-- Wallet with negative cash (reachable by covering a short at a loss)
used to refute C5 as literally stated. -/
def wNegBalance : Wallet :=
  { initial_balance := 10000, balance_usd := -1, positions := [], history := [] }

/-- C5 counterexample: open a dust-sized short (amount 1e-9) at price 10
from a wallet with negative cash, then close_position at the same
price: the closing buy hits the insufficient-balance guard (the dust
short was reinitialized to flat), so the cash credited by the opening
sell is never debited back and the balance does not return to its
pre-open value. -/
theorem round_trip_claim_counterexample :
    (close_position (sell wNegBalance symX 10 (1 / 1000000000)).2.2 symX 10).2.balance_usd
      ≠ wNegBalance.balance_usd := by
  norm_num [close_position, sell, buy, effPos, lookupPos, setPos, recordTrade,
    freshPos, dust, wNegBalance, abs]

/-- C5 (amended): opening a position (long via buy, or short via sell)
on a flat-or-unseen symbol and then fully closing it with
close_position at the same price restores balance_usd exactly and
leaves the position with amount exactly 0 and all exit rules cleared —
for a long open unconditionally, and for a short open provided the
opened amount is at least the dust threshold 1e-8 or the pre-open
balance is nonnegative.  (With a dust short and negative pre-open cash
the closing buy fails its balance guard and the cash is not restored.) -/
theorem open_close_round_trip (w : Wallet) (s : Symb) (p a : ℚ)
    (hp : 0 < p) (ha : 0 < a)
    (hflat : ∀ q, lookupPos w.positions s = some q → |q.amount| < dust) :
    ((buy w s p a).1 = true →
      ∃ q', lookupPos (close_position (buy w s p a).2.2 s p).2.positions s = some q' ∧
        (close_position (buy w s p a).2.2 s p).2.balance_usd = w.balance_usd ∧
        q'.amount = 0 ∧ q'.stop_loss = Option.none ∧ q'.take_profit = Option.none ∧
        q'.trailing_stop_percent = Option.none ∧ q'.scaling_targets = ([] : List ℚ)) ∧
    (dust ≤ a ∨ 0 ≤ w.balance_usd →
      ∃ q', lookupPos (close_position (sell w s p a).2.2 s p).2.positions s = some q' ∧
        (close_position (sell w s p a).2.2 s p).2.balance_usd = w.balance_usd ∧
        q'.amount = 0 ∧ q'.stop_loss = Option.none ∧ q'.take_profit = Option.none ∧
        q'.trailing_stop_percent = Option.none ∧ q'.scaling_targets = ([] : List ℚ)) := by
  constructor
  · intro hsucc
    have hQ := buy_open_step w s p a ha hflat hsucc
    obtain ⟨r, hr⟩ := sell_sets_position (buy w s p a).2.2 s p a
    have hclose := close_position_eval_long (buy w s p a).2.2 s p
      { amount := a, avg_price := p, highest_price := p, lowest_price := p }
      r hQ ha hr
    rw [hclose]
    refine ⟨_, lookupPos_setPos_self _ _ _, ?_, rfl, rfl, rfl, rfl, rfl⟩
    have hb1 := sell_balance (buy w s p a).2.2 s p a
    have hb0 := buy_balance_success w s p a hsucc
    simp only []
    rw [hb1, hb0]
    ring
  · intro hcase
    have hQ0 := sell_open_step w s p a ha hflat
    set Q : Position :=
      { amount := -a, avg_price := p, highest_price := p, lowest_price := p }
      with hQdef
    have hQamt : Q.amount = -a := rfl
    have hQneg : Q.amount < 0 := by
      rw [hQamt]
      exact neg_lt_zero.mpr ha
    have hQnotpos : ¬ Q.amount > 0 := not_lt.mpr (le_of_lt hQneg)
    have habs : |Q.amount| = a := by
      rw [hQamt, abs_neg, abs_of_pos ha]
    by_cases hd : dust ≤ a
    · have hnd : ¬ |Q.amount| < dust := by
        rw [habs]
        exact not_lt.mpr hd
      obtain ⟨hsucc2, hbal2, hlook2⟩ :=
        buy_cover_step (sell w s p a).2.2 s p |Q.amount| Q hQ0 hnd hQneg
      have hclose := close_position_eval_short (sell w s p a).2.2 s p Q _ hQ0
        hQnotpos hlook2
      rw [hclose]
      refine ⟨_, lookupPos_setPos_self _ _ _, ?_, rfl, rfl, rfl, rfl, rfl⟩
      simp only []
      rw [hbal2, sell_balance, habs]
      ring
    · have hb : 0 ≤ w.balance_usd := hcase.resolve_left hd
      have hflat1 : ∀ q, lookupPos (sell w s p a).2.2.positions s = some q →
          |q.amount| < dust := by
        intro q hq
        rw [hQ0] at hq
        obtain rfl : Q = q := Option.some.inj hq
        rw [habs]
        exact not_le.mp hd
      have hguard : ¬ (((effPos (sell w s p a).2.2 s p).1.amount ≥ 0) ∧
          |Q.amount| * p > (sell w s p a).2.2.balance_usd) := by
        rintro ⟨-, hgt⟩
        rw [habs, sell_balance] at hgt
        linarith
      have hsucc2 := buy_success_of_not_guard (sell w s p a).2.2 s p |Q.amount|
        hguard
      have hopen := buy_open_step (sell w s p a).2.2 s p |Q.amount|
        (by rw [habs]; exact ha) hflat1 hsucc2
      have hclose := close_position_eval_short (sell w s p a).2.2 s p Q _ hQ0
        hQnotpos hopen
      rw [hclose]
      refine ⟨_, lookupPos_setPos_self _ _ _, ?_, rfl, rfl, rfl, rfl, rfl⟩
      simp only []
      rw [buy_balance_success _ _ _ _ hsucc2, sell_balance, habs]
      ring

/-- Witness for the amended C5: buy 0.1 at 50000 on the fresh wallet,
then close at 50000: the balance returns to 10000 and the position is
zeroed with all rules cleared. -/
theorem open_close_round_trip_witness :
    ∃ q', lookupPos (close_position
        (buy defaultWallet symBTC 50000 (1 / 10)).2.2 symBTC 50000).2.positions
        symBTC = some q' ∧
      (close_position (buy defaultWallet symBTC 50000 (1 / 10)).2.2 symBTC
        50000).2.balance_usd = defaultWallet.balance_usd ∧
      q'.amount = 0 ∧ q'.stop_loss = Option.none ∧ q'.take_profit = Option.none ∧
      q'.trailing_stop_percent = Option.none ∧ q'.scaling_targets = ([] : List ℚ) :=
  (open_close_round_trip defaultWallet symBTC 50000 (1 / 10) (by norm_num)
      (by norm_num)
      (by intro q h; simp [defaultWallet, lookupPos] at h)).1
    (by norm_num [buy, effPos, defaultWallet, lookupPos, freshPos])

/-- Helper: the watermark update never changes the amount. -/
theorem watermarkUpd_amount (pos : Position) (cp : ℚ) :
    (watermarkUpd pos cp).amount = pos.amount := by
  unfold watermarkUpd
  split <;> rfl

/-- Helper: the watermark update never changes the scaling targets. -/
theorem watermarkUpd_targets (pos : Position) (cp : ℚ) :
    (watermarkUpd pos cp).scaling_targets = pos.scaling_targets := by
  unfold watermarkUpd
  split <;> rfl

/-- Helper: a buy never removes the symbol from the book. -/
theorem buy_preserves_presence (w : Wallet) (s : Symb) (p a : ℚ) (q : Position)
    (hl : lookupPos w.positions s = some q) :
    ∃ r, lookupPos (buy w s p a).2.2.positions s = some r := by
  by_cases hc : (effPos w s p).1.amount ≥ 0 ∧ a * p > w.balance_usd
  · simp only [buy]
    rw [if_pos hc]
    exact ⟨q, hl⟩
  · simp only [buy]
    rw [if_neg hc]
    simp only [recordTrade]
    exact ⟨_, lookupPos_setPos_self _ _ _⟩

/-- Helper: close_position always leaves the symbol flat with all exit
rules cleared, whatever the closing trade did. -/
theorem close_position_clears (w : Wallet) (s : Symb) (cp : ℚ) (q : Position)
    (hl : lookupPos w.positions s = some q) :
    ∃ q', lookupPos (close_position w s cp).2.positions s = some q' ∧
      q'.amount = 0 ∧ q'.stop_loss = Option.none ∧ q'.take_profit = Option.none ∧
      q'.trailing_stop_percent = Option.none ∧ q'.scaling_targets = ([] : List ℚ) := by
  have hpres : ∃ r, lookupPos
      ((if q.amount > 0 then sell w s cp q.amount
        else buy w s cp |q.amount|)).2.2.positions s = some r := by
    split
    · obtain ⟨r, hr⟩ := sell_sets_position w s cp q.amount
      exact ⟨r, hr⟩
    · exact buy_preserves_presence w s cp |q.amount| q hl
  obtain ⟨r, hr⟩ := hpres
  simp only [close_position, hl, hr]
  exact ⟨_, lookupPos_setPos_self _ _ _, rfl, rfl, rfl, rfl, rfl⟩

/-- C4: whenever both the stop-loss and the take-profit conditions hold
for the current price on a non-flat position, check_automated_orders
returns the stop-loss message, the resulting state is exactly the full
close of the watermark-updated position (so the take-profit, trailing
stop and scaling rules are never evaluated), and the position ends flat
with all exit rules cleared. -/
theorem stop_loss_priority (w : Wallet) (s : Symb) (cp : ℚ) (pos0 : Position)
    (hl : lookupPos w.positions s = some pos0)
    (hnd : ¬ |pos0.amount| < dust)
    (hsl : slFires (watermarkUpd pos0 cp) cp = true)
    (htp : tpFires (watermarkUpd pos0 cp) cp = true) :
    (check_automated_orders w s cp).1 = some (OrderMsg.stopLoss cp) ∧
    (check_automated_orders w s cp).2 =
      (close_position
        { w with positions := setPos w.positions s (watermarkUpd pos0 cp) }
        s cp).2 ∧
    ∃ q', lookupPos (check_automated_orders w s cp).2.positions s = some q' ∧
      q'.amount = 0 ∧ q'.stop_loss = Option.none ∧ q'.take_profit = Option.none ∧
      q'.trailing_stop_percent = Option.none ∧ q'.scaling_targets = ([] : List ℚ) := by
  have hcheck : check_automated_orders w s cp =
      (some (OrderMsg.stopLoss cp),
        (close_position
          { w with positions := setPos w.positions s (watermarkUpd pos0 cp) }
          s cp).2) := by
    simp only [check_automated_orders, hl]
    rw [if_neg hnd, if_pos (by rw [hsl])]
  refine ⟨by rw [hcheck], by rw [hcheck], ?_⟩
  rw [hcheck]
  exact close_position_clears _ s cp (watermarkUpd pos0 cp)
    (lookupPos_setPos_self _ _ _)

/-- Long position primed so that stop-loss (49000) and take-profit
(48000) both trigger at price 48500. -/
def posBothRules : Position :=
  { amount := 1 / 10, avg_price := 50000, highest_price := 50000,
    lowest_price := 50000, stop_loss := some 49000, take_profit := some 48000 }

/-- Wallet for the C4 witness. -/
def wBothRules : Wallet :=
  { initial_balance := 10000, balance_usd := 5000,
    positions := [(symX, posBothRules)], history := [] }

/-- Witness for C4: at price 48500 both rules trigger and the stop loss
wins. -/
theorem stop_loss_priority_witness :
    (check_automated_orders wBothRules symX 48500).1 =
      some (OrderMsg.stopLoss 48500) ∧
    (check_automated_orders wBothRules symX 48500).2 =
      (close_position
        { wBothRules with
          positions := setPos wBothRules.positions symX
            (watermarkUpd posBothRules 48500) }
        symX 48500).2 ∧
    ∃ q', lookupPos (check_automated_orders wBothRules symX 48500).2.positions
        symX = some q' ∧
      q'.amount = 0 ∧ q'.stop_loss = Option.none ∧ q'.take_profit = Option.none ∧
      q'.trailing_stop_percent = Option.none ∧ q'.scaling_targets = ([] : List ℚ) :=
  stop_loss_priority wBothRules symX 48500 posBothRules
    (by simp [wBothRules, lookupPos])
    (by norm_num [posBothRules, dust, abs])
    (by norm_num [slFires, watermarkUpd, posBothRules])
    (by norm_num [tpFires, watermarkUpd, posBothRules])

/-- Helper: selling part of an existing non-dust long just reduces the
amount, leaving average, watermarks and rules untouched. -/
theorem sell_reduce_step (w : Wallet) (s : Symb) (p a : ℚ) (q : Position)
    (hl : lookupPos w.positions s = some q) (hnd : ¬ |q.amount| < dust)
    (hqpos : q.amount > 0) :
    lookupPos (sell w s p a).2.2.positions s =
      some { q with amount := q.amount - a } := by
  have heff : effPos w s p = (q, false) := by
    simp only [effPos, hl]
    rw [if_neg hnd]
  simp only [sell, heff]
  rw [if_neg (not_le.mpr hqpos)]
  simp [recordTrade, lookupPos_setPos_self]


/-- C6: when no higher-priority rule fires and the first matching
scaling target t (occurring once in the list) is hit on a non-flat
position, check_automated_orders closes exactly half of the remaining
magnitude through the opposite-direction engine call (cash credit for a
long, debit for a short), removes exactly that target (erase of its
first occurrence), and a subsequent evaluation at the same price can
never fire the removed target again: it is gone from the list, so
firstTarget never returns it for any amount. -/
theorem scaling_target_step (w : Wallet) (s : Symb) (cp : ℚ)
    (pos0 : Position) (t : ℚ)
    (hl : lookupPos w.positions s = some pos0)
    (hnd : ¬ |pos0.amount| < dust)
    (hsl : slFires (watermarkUpd pos0 cp) cp = false)
    (htp : tpFires (watermarkUpd pos0 cp) cp = false)
    (htsl : tslFires (watermarkUpd pos0 cp) cp = false)
    (hft : firstTarget pos0.amount cp pos0.scaling_targets = some t)
    (hcount : pos0.scaling_targets.count t = 1) :
    (check_automated_orders w s cp).1 = some (OrderMsg.scaledOut cp) ∧
    (check_automated_orders w s cp).2.balance_usd =
      (if pos0.amount > 0 then w.balance_usd + |pos0.amount| * (1 / 2) * cp
       else w.balance_usd - |pos0.amount| * (1 / 2) * cp) ∧
    ∃ q', lookupPos (check_automated_orders w s cp).2.positions s = some q' ∧
      q'.amount = pos0.amount / 2 ∧
      q'.scaling_targets = pos0.scaling_targets.erase t ∧
      t ∉ q'.scaling_targets ∧
      (∀ a' : ℚ, firstTarget a' cp q'.scaling_targets ≠ some t) := by
  have hamt0 : pos0.amount ≠ 0 := by
    intro h0
    apply hnd
    rw [h0]
    norm_num [dust]
  have hpos1 : lookupPos
      ({ w with positions := setPos w.positions s (watermarkUpd pos0 cp) }).positions
      s = some (watermarkUpd pos0 cp) := lookupPos_setPos_self _ _ _
  have hftw : firstTarget (watermarkUpd pos0 cp).amount cp
      (watermarkUpd pos0 cp).scaling_targets = some t := by
    rw [watermarkUpd_amount, watermarkUpd_targets]
    exact hft
  have htmem : t ∉ pos0.scaling_targets.erase t := by
    have hc := List.count_erase_self t pos0.scaling_targets
    rw [hcount] at hc
    exact List.count_eq_zero.mp hc
  have hnofire : ∀ a' : ℚ,
      firstTarget a' cp (pos0.scaling_targets.erase t) ≠ some t := by
    intro a' hfind
    exact htmem (List.mem_of_find?_eq_some hfind)
  have hcheck : check_automated_orders w s cp =
      (some (OrderMsg.scaledOut cp),
        scaleOutWallet
          ({ w with positions := setPos w.positions s (watermarkUpd pos0 cp) })
          s cp (watermarkUpd pos0 cp) t) := by
    simp only [check_automated_orders, hl]
    rw [if_neg hnd, if_neg (by rw [hsl]; exact Bool.false_ne_true),
      if_neg (by rw [htp]; exact Bool.false_ne_true),
      if_neg (by rw [htsl]; exact Bool.false_ne_true)]
    rw [hftw]
  have hndw : ¬ |(watermarkUpd pos0 cp).amount| < dust := by
    rw [watermarkUpd_amount]
    exact hnd
  by_cases hsgn : pos0.amount > 0
  · have hwm : (watermarkUpd pos0 cp).amount > 0 := by
      rw [watermarkUpd_amount]
      exact hsgn
    have hred := sell_reduce_step
      { w with positions := setPos w.positions s (watermarkUpd pos0 cp) }
      s cp (|(watermarkUpd pos0 cp).amount| * (1 / 2)) (watermarkUpd pos0 cp)
      hpos1 hndw hwm
    have hbal : (scaleOutWallet
        ({ w with positions := setPos w.positions s (watermarkUpd pos0 cp) })
        s cp (watermarkUpd pos0 cp) t).balance_usd =
        w.balance_usd + |pos0.amount| * (1 / 2) * cp := by
      simp only [scaleOutWallet]
      rw [if_pos hwm, hred]
      simp only []
      rw [sell_balance]
      simp only [watermarkUpd_amount]
    have hlookf : lookupPos (scaleOutWallet
        ({ w with positions := setPos w.positions s (watermarkUpd pos0 cp) })
        s cp (watermarkUpd pos0 cp) t).positions s =
        some ({ watermarkUpd pos0 cp with
          amount := (watermarkUpd pos0 cp).amount -
            |(watermarkUpd pos0 cp).amount| * (1 / 2),
          scaling_targets := (watermarkUpd pos0 cp).scaling_targets.erase t }) := by
      simp only [scaleOutWallet]
      rw [if_pos hwm, hred]
      exact lookupPos_setPos_self _ _ _
    refine ⟨by rw [hcheck], ?_, ?_⟩
    · rw [hcheck]
      rw [if_pos hsgn]
      exact hbal
    · rw [hcheck]
      refine ⟨_, hlookf, ?_, ?_, ?_, ?_⟩
      · simp only []
        rw [watermarkUpd_amount, abs_of_pos hsgn]
        ring
      · simp only []
        rw [watermarkUpd_targets]
      · simp only []
        rw [watermarkUpd_targets]
        exact htmem
      · intro a'
        simp only []
        rw [watermarkUpd_targets]
        exact hnofire a'
  · have hneg : pos0.amount < 0 := lt_of_le_of_ne (not_lt.mp hsgn) hamt0
    have hwmneg : (watermarkUpd pos0 cp).amount < 0 := by
      rw [watermarkUpd_amount]
      exact hneg
    have hwmnotpos : ¬ (watermarkUpd pos0 cp).amount > 0 := by
      rw [watermarkUpd_amount]
      exact hsgn
    obtain ⟨hsucc2, hbal2, hlook2⟩ := buy_cover_step
      { w with positions := setPos w.positions s (watermarkUpd pos0 cp) }
      s cp (|(watermarkUpd pos0 cp).amount| * (1 / 2)) (watermarkUpd pos0 cp)
      hpos1 hndw hwmneg
    have hbal : (scaleOutWallet
        ({ w with positions := setPos w.positions s (watermarkUpd pos0 cp) })
        s cp (watermarkUpd pos0 cp) t).balance_usd =
        w.balance_usd - |pos0.amount| * (1 / 2) * cp := by
      simp only [scaleOutWallet]
      rw [if_neg hwmnotpos, hlook2]
      simp only []
      rw [hbal2]
      simp only [watermarkUpd_amount]
    have hlookf : lookupPos (scaleOutWallet
        ({ w with positions := setPos w.positions s (watermarkUpd pos0 cp) })
        s cp (watermarkUpd pos0 cp) t).positions s =
        some ({ watermarkUpd pos0 cp with
          amount := (watermarkUpd pos0 cp).amount +
            |(watermarkUpd pos0 cp).amount| * (1 / 2),
          scaling_targets := (watermarkUpd pos0 cp).scaling_targets.erase t }) := by
      simp only [scaleOutWallet]
      rw [if_neg hwmnotpos, hlook2]
      exact lookupPos_setPos_self _ _ _
    refine ⟨by rw [hcheck], ?_, ?_⟩
    · rw [hcheck]
      rw [if_neg hsgn]
      exact hbal
    · rw [hcheck]
      refine ⟨_, hlookf, ?_, ?_, ?_, ?_⟩
      · simp only []
        rw [watermarkUpd_amount, abs_of_neg hneg]
        ring
      · simp only []
        rw [watermarkUpd_targets]
      · simp only []
        rw [watermarkUpd_targets]
        exact htmem
      · intro a'
        simp only []
        rw [watermarkUpd_targets]
        exact hnofire a'

/-- Long position with two scaling targets for the C6 witness. -/
def posScale : Position :=
  { amount := 1, avg_price := 100, highest_price := 100, lowest_price := 100,
    scaling_targets := [110, 120] }

/-- Wallet for the C6 witness. -/
def wScale : Wallet :=
  { initial_balance := 10000, balance_usd := 1000,
    positions := [(symX, posScale)], history := [] }

/-- Witness for C6: at price 115 the first target 110 fires, half the
position is sold, 110 is removed and can no longer be selected. -/
theorem scaling_target_step_witness :
    (check_automated_orders wScale symX 115).1 =
      some (OrderMsg.scaledOut 115) ∧
    (check_automated_orders wScale symX 115).2.balance_usd =
      (if posScale.amount > 0 then
        wScale.balance_usd + |posScale.amount| * (1 / 2) * 115
       else wScale.balance_usd - |posScale.amount| * (1 / 2) * 115) ∧
    ∃ q', lookupPos (check_automated_orders wScale symX 115).2.positions symX =
        some q' ∧
      q'.amount = posScale.amount / 2 ∧
      q'.scaling_targets = posScale.scaling_targets.erase 110 ∧
      (110 : ℚ) ∉ q'.scaling_targets ∧
      (∀ a' : ℚ, firstTarget a' 115 q'.scaling_targets ≠ some 110) :=
  scaling_target_step wScale symX 115 posScale 110
    (by simp [wScale, lookupPos])
    (by norm_num [posScale, dust])
    (by norm_num [slFires, watermarkUpd, posScale])
    (by norm_num [tpFires, watermarkUpd, posScale])
    (by norm_num [tslFires, watermarkUpd, posScale])
    (by norm_num [firstTarget, targetMatches, List.find?_cons, posScale])
    (by norm_num [posScale, List.count_cons, List.count_nil, beq_iff_eq])

/-- ASCII whitespace for str.strip / float() (the uncommon \f, \v and
unicode spaces of CPython are not modelled; no claim exercises them). -/
def isSpace (c : Char) : Bool := c = ' ' || c = '\t' || c = '\n' || c = '\r'

/-- Python str.strip(). -/
def trimChars (l : List Char) : List Char :=
  ((l.dropWhile isSpace).reverse.dropWhile isSpace).reverse

/-- The characters removed by lines 65 of wallet.py. -/
def isMoneyChar (c : Char) : Bool := c = '$' || c = ','

/-- The replace('$','').replace(',','') step of _sanitize_price. -/
def removeMoney (l : List Char) : List Char := l.filter (fun c => !(isMoneyChar c))

/-- Numeric value of a digit character. -/
def digitVal (c : Char) : ℕ := c.toNat - Char.toNat '0'

/-- Value of a digit string, most significant first. -/
def digitsToNat (l : List Char) : ℕ := l.foldl (fun acc c => 10 * acc + digitVal c) 0

/-- Exponent digits of a float literal (model of the CPython float()
grammar; int/float overflow and inf/nan/underscore forms are not
modelled; no claim exercises them). -/
def parseExpDigits? (l : List Char) (sgn : ℤ) : Option ℤ :=
  if l ≠ [] ∧ l.all Char.isDigit then some (sgn * (digitsToNat l : ℤ)) else Option.none

/-- Optional exponent part of a float literal, which must consume the
whole remaining input. -/
def parseExp? : List Char → Option ℤ
  | [] => some 0
  | c :: rest =>
    if c = 'e' ∨ c = 'E' then
      match rest with
      | [] => Option.none
      | d :: rest2 =>
        if d = '+' then parseExpDigits? rest2 1
        else if d = '-' then parseExpDigits? rest2 (-1)
        else parseExpDigits? (d :: rest2) 1
    else Option.none

/-- Unsigned mantissa: digits with an optional fractional part, at
least one digit overall. -/
def parseMantissa? (l : List Char) : Option (ℚ × List Char) :=
  let ip := l.takeWhile Char.isDigit
  let r1 := l.dropWhile Char.isDigit
  match r1 with
  | [] => if ip = [] then Option.none else some ((digitsToNat ip : ℚ), [])
  | c :: r2 =>
    if c = '.' then
      let fp := r2.takeWhile Char.isDigit
      let r3 := r2.dropWhile Char.isDigit
      if ip = [] ∧ fp = [] then Option.none
      else some ((digitsToNat ip : ℚ) + (digitsToNat fp : ℚ) / 10 ^ fp.length, r3)
    else if ip = [] then Option.none else some ((digitsToNat ip : ℚ), c :: r2)

/-- Mantissa followed by an optional exponent. -/
def pyFloatCore? (l : List Char) : Option ℚ :=
  match parseMantissa? l with
  | Option.none => Option.none
  | some (m, rest) =>
    match parseExp? rest with
    | Option.none => Option.none
    | some e => some (m * 10 ^ e)

/-- Model of the CPython float(str) builtin on its decimal-literal
fragment: strip whitespace, optional sign, mantissa, optional exponent. -/
def pyFloatOfChars? (l : List Char) : Option ℚ :=
  match trimChars l with
  | [] => Option.none
  | c :: r =>
    if c = '+' then pyFloatCore? r
    else if c = '-' then (pyFloatCore? r).map Neg.neg
    else pyFloatCore? (c :: r)

/-- Python value as received from the untrusted strategy object.
(bool, bytes and further types are not modelled; no claim uses them.) -/
inductive PyVal where
  | vint (n : ℤ)
  | vfloat (q : ℚ)
  | vstr (s : List Char)
  | vnone
  | vlist (xs : List PyVal)
  | vdict (kvs : List (List Char × PyVal))

/-- PaperWallet._sanitize_price (wallet.py lines 58-69): numbers pass
through float(), strings are cleaned of dollars/commas/whitespace and
parsed (0.0 on failure), everything else gives 0.0. -/
def sanitize_price : PyVal → ℚ
  | PyVal.vint n => (n : ℚ)
  | PyVal.vfloat q => q
  | PyVal.vstr s => (pyFloatOfChars? (trimChars (removeMoney s))).getD 0
  | _ => 0

/-- Helper for the claim-side grammar: the next character (if any) is
not a digit, so a digit group ends here. -/
def headNotDigit (l : List Char) : Bool :=
  match l with
  | [] => true
  | e :: _ => ! e.isDigit

/-- Claim-side grammar of C8, following the words of the spec: comma
groups of exactly three digits after the leading group. -/
def specGroups? (acc : ℕ) : List Char → Option (ℕ × List Char)
  | [] => some (acc, [])
  | c :: r =>
    if c = ',' then
      match r with
      | a :: b :: d :: r2 =>
        if a.isDigit && b.isDigit && d.isDigit && headNotDigit r2 then
          specGroups? (1000 * acc + digitsToNat [a, b, d]) r2
        else Option.none
      | _ => Option.none
    else some (acc, c :: r)

/-- Claim-side grammar: integer part with optional proper thousands
grouping (leading group of at most three digits when commas follow). -/
def specIntPart? (l : List Char) : Option (ℕ × List Char) :=
  let ds := l.takeWhile Char.isDigit
  let r := l.dropWhile Char.isDigit
  if ds = [] then Option.none
  else
    match r with
    | [] => some (digitsToNat ds, [])
    | c :: r' =>
      if c = ',' then
        if ds.length ≤ 3 then specGroups? (digitsToNat ds) (c :: r')
        else Option.none
      else some (digitsToNat ds, c :: r')

/-- Claim-side grammar: optional dollar sign. -/
def dropDollar (t : List Char) : List Char :=
  match t with
  | [] => []
  | c :: r => if c = '$' then r else c :: r

/-- Claim-side grammar: optional fractional part ending the string. -/
def specFrac? (n : ℕ) : List Char → Option ℚ
  | [] => some (n : ℚ)
  | c :: fr =>
    if c = '.' then
      if fr ≠ [] ∧ fr.all Char.isDigit then
        some ((n : ℚ) + (digitsToNat fr : ℚ) / 10 ^ fr.length)
      else Option.none
    else Option.none

/-- Claim-side rendering of the string shape C8 describes, with the
exact decimal value it denotes. -/
def specShapedPrice? (s : List Char) : Option ℚ :=
  match specIntPart? (dropDollar (trimChars s)) with
  | Option.none => Option.none
  | some (n, rest) => specFrac? n rest

/-- The string "2,5" (a currency-style string that is not properly
thousands-grouped). -/
def txt25 : List Char := ['2', ',', '5']

/-- The string " $64,000.50 " of the spec scenario. -/
def txt64k : List Char :=
  [' ', '$', '6', '4', ',', '0', '0', '0', '.', '5', '0', ' ']

/-- The string "$60,000" of the spec scenario. -/
def txt60k : List Char := ['$', '6', '0', ',', '0', '0', '0']

/-- Helper: dropWhile skips over a prefix that wholly satisfies p. -/
theorem dropWhile_append_all (p : Char → Bool) (w l : List Char)
    (h : ∀ c ∈ w, p c = true) :
    (w ++ l).dropWhile p = l.dropWhile p := by
  induction w with
  | nil => rfl
  | cons c r ih =>
    simp only [List.cons_append,
      List.dropWhile_cons_of_pos (h c (List.mem_cons_self c r))]
    exact ih (fun x hx => h x (List.mem_cons_of_mem c hx))

/-- Helper: dropWhile keeps a list none of whose elements satisfy p. -/
theorem dropWhile_all_neg (p : Char → Bool) (l : List Char)
    (h : ∀ c ∈ l, p c = false) :
    l.dropWhile p = l := by
  cases l with
  | nil => rfl
  | cons c r =>
    exact List.dropWhile_cons_of_neg
      (by rw [h c (List.mem_cons_self c r)]; exact Bool.false_ne_true)

/-- Helper: dropWhile consumes a list that wholly satisfies p. -/
theorem dropWhile_all_pos (p : Char → Bool) (l : List Char)
    (h : ∀ c ∈ l, p c = true) :
    l.dropWhile p = [] := by
  have := dropWhile_append_all p l [] h
  simpa using this

/-- Helper: takeWhile passes over a prefix that wholly satisfies p. -/
theorem takeWhile_append_all (p : Char → Bool) (w l : List Char)
    (h : ∀ c ∈ w, p c = true) :
    (w ++ l).takeWhile p = w ++ l.takeWhile p := by
  induction w with
  | nil => rfl
  | cons c r ih =>
    simp only [List.cons_append,
      List.takeWhile_cons_of_pos (h c (List.mem_cons_self c r))]
    rw [ih (fun x hx => h x (List.mem_cons_of_mem c hx))]

/-- Helper: takeWhile keeps a list that wholly satisfies p. -/
theorem takeWhile_all_pos (p : Char → Bool) (l : List Char)
    (h : ∀ c ∈ l, p c = true) :
    l.takeWhile p = l := by
  have := takeWhile_append_all p l [] h
  simpa using this

/-- Helper: a list with no whitespace is its own strip. -/
theorem trim_eq_self_of_no_space (l : List Char)
    (h : ∀ c ∈ l, isSpace c = false) :
    trimChars l = l := by
  unfold trimChars
  rw [dropWhile_all_neg isSpace l h,
    dropWhile_all_neg isSpace l.reverse (fun c hc => h c (List.mem_reverse.mp hc)),
    List.reverse_reverse]

/-- Helper: stripping removes exactly the surrounding whitespace. -/
theorem trim_sandwich (w1 m w2 : List Char)
    (h1 : ∀ c ∈ w1, isSpace c = true) (h2 : ∀ c ∈ w2, isSpace c = true)
    (hm : ∀ c ∈ m, isSpace c = false) :
    trimChars (w1 ++ m ++ w2) = m := by
  unfold trimChars
  rw [List.append_assoc, dropWhile_append_all isSpace w1 (m ++ w2) h1]
  cases m with
  | nil =>
    simp only [List.nil_append]
    rw [dropWhile_all_pos isSpace w2 h2]
    rfl
  | cons c m' =>
    have hc : isSpace c = false := hm c (List.mem_cons_self c m')
    rw [List.cons_append, List.dropWhile_cons_of_neg (by rw [hc]; exact Bool.false_ne_true)]
    rw [show (c :: (m' ++ w2)).reverse = w2.reverse ++ (m'.reverse ++ [c]) by
      simp]
    rw [dropWhile_append_all isSpace w2.reverse _
      (fun x hx => h2 x (List.mem_reverse.mp hx))]
    rw [show m'.reverse ++ [c] = (c :: m').reverse by simp]
    rw [dropWhile_all_neg isSpace (c :: m').reverse
      (fun x hx => hm x (List.mem_reverse.mp hx))]
    rw [List.reverse_reverse]

/-- Helper: any list splits as whitespace, its strip, whitespace. -/
theorem trim_decomp (l : List Char) :
    ∃ w1 w2, l = w1 ++ trimChars l ++ w2 ∧
      (∀ c ∈ w1, isSpace c = true) ∧ (∀ c ∈ w2, isSpace c = true) := by
  refine ⟨l.takeWhile isSpace,
    ((l.dropWhile isSpace).reverse.takeWhile isSpace).reverse, ?_, ?_, ?_⟩
  · unfold trimChars
    conv_lhs => rw [← List.takeWhile_append_dropWhile (p := isSpace) (l := l)]
    rw [List.append_assoc]
    congr 1
    have h2 := List.takeWhile_append_dropWhile (p := isSpace)
      (l := (l.dropWhile isSpace).reverse)
    calc l.dropWhile isSpace
        = ((l.dropWhile isSpace).reverse).reverse := (List.reverse_reverse _).symm
      _ = ((l.dropWhile isSpace).reverse.takeWhile isSpace ++
            (l.dropWhile isSpace).reverse.dropWhile isSpace).reverse := by rw [h2]
      _ = ((l.dropWhile isSpace).reverse.dropWhile isSpace).reverse ++
            ((l.dropWhile isSpace).reverse.takeWhile isSpace).reverse := by
          rw [List.reverse_append]
  · intro c hc
    exact List.mem_takeWhile_imp hc
  · intro c hc
    exact List.mem_takeWhile_imp (List.mem_reverse.mp hc)

/-- Helper: whitespace characters are not money characters. -/
theorem isSpace_not_money (c : Char) (h : isSpace c = true) :
    isMoneyChar c = false := by
  simp only [isSpace, Bool.or_eq_true, decide_eq_true_eq] at h
  rcases h with ((h | h) | h) | h <;> subst h <;> decide

/-- Helper: digits are not money characters. -/
theorem isDigit_not_money (c : Char) (h : c.isDigit = true) :
    isMoneyChar c = false := by
  simp only [isMoneyChar, Bool.or_eq_false_iff, decide_eq_false_iff_not]
  constructor <;> intro hc <;> subst hc <;> exact absurd h (by decide)

/-- Helper: digits are not whitespace. -/
theorem isDigit_not_space (c : Char) (h : c.isDigit = true) :
    isSpace c = false := by
  simp only [isSpace, Bool.or_eq_false_iff, decide_eq_false_iff_not]
  refine ⟨⟨⟨?_, ?_⟩, ?_⟩, ?_⟩ <;> intro hc <;> subst hc <;>
    exact absurd h (by decide)

/-- Helper: the money cleaning distributes over append. -/
theorem removeMoney_append (a b : List Char) :
    removeMoney (a ++ b) = removeMoney a ++ removeMoney b := by
  simp [removeMoney, List.filter_append]

/-- Helper: cleaning a money-free list is the identity. -/
theorem removeMoney_of_no_money (l : List Char)
    (h : ∀ c ∈ l, isMoneyChar c = false) :
    removeMoney l = l := by
  unfold removeMoney
  rw [List.filter_eq_self]
  intro c hc
  rw [h c hc]
  rfl

/-- Helper: cleaning whitespace is the identity. -/
theorem removeMoney_of_spaces (l : List Char)
    (h : ∀ c ∈ l, isSpace c = true) :
    removeMoney l = l :=
  removeMoney_of_no_money l (fun c hc => isSpace_not_money c (h c hc))

/-- Helper: cleaning a digit string is the identity. -/
theorem removeMoney_of_digits (l : List Char)
    (h : ∀ c ∈ l, c.isDigit = true) :
    removeMoney l = l :=
  removeMoney_of_no_money l (fun c hc => isDigit_not_money c (h c hc))

/-- Helper: folding digit accumulation from an arbitrary seed. -/
theorem foldl_digit_split (l : List Char) (acc : ℕ) :
    l.foldl (fun a c => 10 * a + digitVal c) acc =
      acc * 10 ^ l.length + l.foldl (fun a c => 10 * a + digitVal c) 0 := by
  induction l generalizing acc with
  | nil => simp
  | cons c r ih =>
    simp only [List.foldl_cons, List.length_cons]
    rw [ih (10 * acc + digitVal c), ih (10 * 0 + digitVal c)]
    ring

/-- Helper: digit folding from a seed in terms of digitsToNat. -/
theorem digitsToNat_foldl (l : List Char) (acc : ℕ) :
    l.foldl (fun a c => 10 * a + digitVal c) acc =
      acc * 10 ^ l.length + digitsToNat l := by
  unfold digitsToNat
  exact foldl_digit_split l acc

/-- Helper: digit-string values compose positionally. -/
theorem digitsToNat_append (a b : List Char) :
    digitsToNat (a ++ b) = digitsToNat a * 10 ^ b.length + digitsToNat b := by
  unfold digitsToNat
  rw [List.foldl_append]
  exact digitsToNat_foldl b _

/-- Helper: one step of money cleaning. -/
theorem removeMoney_cons (c : Char) (l : List Char) :
    removeMoney (c :: l) =
      (if isMoneyChar c then removeMoney l else c :: removeMoney l) := by
  unfold removeMoney
  by_cases h : isMoneyChar c
  · rw [if_pos h, List.filter_cons_of_neg]
    simp [h]
  · rw [if_neg h, List.filter_cons_of_pos]
    simp [h]

/-- Helper: soundness of the comma-group grammar: the consumed prefix
cleans to a digit string carrying the accumulated value positionally. -/
theorem specGroups_sound (k : ℕ) :
    ∀ (r : List Char), r.length ≤ k → ∀ (acc n : ℕ) (rest : List Char),
    specGroups? acc r = some (n, rest) →
    ∃ gs, r = gs ++ rest ∧ (∀ c ∈ removeMoney gs, c.isDigit = true) ∧
      n = acc * 10 ^ (removeMoney gs).length + digitsToNat (removeMoney gs) := by
  induction k with
  | zero =>
    intro r hr acc n rest h
    have hnil : r = [] := List.eq_nil_of_length_eq_zero (Nat.le_zero.mp hr)
    subst hnil
    simp only [specGroups?, Option.some.injEq, Prod.mk.injEq] at h
    obtain ⟨rfl, rfl⟩ := h
    exact ⟨[], by simp, by simp [removeMoney], by simp [removeMoney, digitsToNat]⟩
  | succ k ih =>
    intro r hr acc n rest h
    cases r with
    | nil =>
      simp only [specGroups?, Option.some.injEq, Prod.mk.injEq] at h
      obtain ⟨rfl, rfl⟩ := h
      exact ⟨[], by simp, by simp [removeMoney], by simp [removeMoney, digitsToNat]⟩
    | cons c r' =>
      unfold specGroups? at h
      by_cases hc : c = ','
      · rw [if_pos hc] at h
        split at h
        · rename_i a b d r3
          by_cases hcond :
              (a.isDigit && b.isDigit && d.isDigit && headNotDigit r3) = true
          · rw [if_pos hcond] at h
            simp only [Bool.and_eq_true] at hcond
            obtain ⟨⟨⟨hda, hdb⟩, hdd⟩, -⟩ := hcond
            have hlen : r3.length ≤ k := by
              simp only [List.length_cons] at hr
              omega
            obtain ⟨gs2, hgs2, hdig2, hval2⟩ := ih r3 hlen _ n rest h
            have hrm : removeMoney (c :: a :: b :: d :: gs2) =
                a :: b :: d :: removeMoney gs2 := by
              rw [removeMoney_cons, if_pos (by rw [hc]; decide),
                removeMoney_cons, if_neg, removeMoney_cons, if_neg,
                removeMoney_cons, if_neg]
              · rw [isDigit_not_money d hdd]
                exact Bool.false_ne_true
              · rw [isDigit_not_money b hdb]
                exact Bool.false_ne_true
              · rw [isDigit_not_money a hda]
                exact Bool.false_ne_true
            refine ⟨c :: a :: b :: d :: gs2, by simp [hgs2], ?_, ?_⟩
            · rw [hrm]
              intro x hx
              simp only [List.mem_cons] at hx
              rcases hx with rfl | rfl | rfl | hx
              · exact hda
              · exact hdb
              · exact hdd
              · exact hdig2 x hx
            · rw [hrm, hval2]
              have hl3 : (a :: b :: d :: removeMoney gs2) =
                  [a, b, d] ++ removeMoney gs2 := rfl
              rw [hl3, digitsToNat_append, List.length_append]
              simp only [List.length_cons, List.length_nil]
              rw [pow_add]
              have h1000 : (10 : ℕ) ^ (0 + 1 + 1 + 1) = 1000 := by norm_num
              rw [h1000]
              ring
          · rw [if_neg hcond] at h
            exact absurd h (by simp)
        · exact absurd h (by simp)
      · rw [if_neg hc] at h
        simp only [Option.some.injEq, Prod.mk.injEq] at h
        obtain ⟨rfl, rfl⟩ := h
        exact ⟨[], by simp, by simp [removeMoney], by simp [removeMoney, digitsToNat]⟩

/-- Helper: soundness of the integer-part grammar: the consumed prefix
cleans to a nonempty digit string with the parsed value. -/
theorem specIntPart_sound (l : List Char) (n : ℕ) (rest : List Char)
    (h : specIntPart? l = some (n, rest)) :
    ∃ gs, l = gs ++ rest ∧ removeMoney gs ≠ [] ∧
      (∀ c ∈ removeMoney gs, c.isDigit = true) ∧
      digitsToNat (removeMoney gs) = n := by
  have hdl : l.takeWhile Char.isDigit ++ l.dropWhile Char.isDigit = l :=
    List.takeWhile_append_dropWhile (p := Char.isDigit) (l := l)
  have hdsd : ∀ c ∈ l.takeWhile Char.isDigit, c.isDigit = true :=
    fun c hc => List.mem_takeWhile_imp hc
  have hrmds : removeMoney (l.takeWhile Char.isDigit) = l.takeWhile Char.isDigit :=
    removeMoney_of_digits _ hdsd
  simp only [specIntPart?] at h
  by_cases hdse : l.takeWhile Char.isDigit = []
  · rw [if_pos hdse] at h
    exact absurd h (by simp)
  · rw [if_neg hdse] at h
    split at h
    · rename_i heq
      simp only [Option.some.injEq, Prod.mk.injEq] at h
      obtain ⟨rfl, rfl⟩ := h
      refine ⟨l.takeWhile Char.isDigit, ?_, ?_, ?_, ?_⟩
      · rw [List.append_nil]
        conv_lhs => rw [← hdl]
        rw [heq, List.append_nil]
      · rw [hrmds]
        exact hdse
      · rw [hrmds]
        exact hdsd
      · rw [hrmds]
    · rename_i c r' heq
      by_cases hcc : c = ','
      · rw [if_pos hcc] at h
        by_cases hlen3 : (l.takeWhile Char.isDigit).length ≤ 3
        · rw [if_pos hlen3] at h
          obtain ⟨gs2, hgs2, hdig2, hval2⟩ :=
            specGroups_sound (c :: r').length (c :: r') le_rfl _ n rest h
          refine ⟨l.takeWhile Char.isDigit ++ gs2, ?_, ?_, ?_, ?_⟩
          · conv_lhs => rw [← hdl]
            rw [heq, hgs2, List.append_assoc]
          · rw [removeMoney_append, hrmds]
            intro hemp
            exact hdse (List.append_eq_nil.mp hemp).1
          · rw [removeMoney_append, hrmds]
            intro x hx
            rcases List.mem_append.mp hx with hx | hx
            · exact hdsd x hx
            · exact hdig2 x hx
          · rw [removeMoney_append, hrmds, digitsToNat_append, hval2]
        · rw [if_neg hlen3] at h
          exact absurd h (by simp)
      · rw [if_neg hcc] at h
        simp only [Option.some.injEq, Prod.mk.injEq] at h
        obtain ⟨rfl, rfl⟩ := h
        refine ⟨l.takeWhile Char.isDigit, ?_, ?_, ?_, ?_⟩
        · conv_lhs => rw [← hdl]
          rw [heq]
        · rw [hrmds]
          exact hdse
        · rw [hrmds]
          exact hdsd
        · rw [hrmds]

/-- Helper: float() on a pure digit string. -/
theorem pyFloatCore_digits (D : List Char) (hne : D ≠ [])
    (hd : ∀ c ∈ D, c.isDigit = true) :
    pyFloatCore? D = some ((digitsToNat D : ℚ)) := by
  unfold pyFloatCore?
  simp only [parseMantissa?, takeWhile_all_pos Char.isDigit D hd,
    dropWhile_all_pos Char.isDigit D hd]
  rw [if_neg hne]
  simp only [parseExp?]
  norm_num

/-- Helper: float() on digits, a dot and fraction digits. -/
theorem pyFloatCore_digits_frac (D fr : List Char) (hne : D ≠ [])
    (hd : ∀ c ∈ D, c.isDigit = true) (hfr : ∀ c ∈ fr, c.isDigit = true) :
    pyFloatCore? (D ++ '.' :: fr) =
      some ((digitsToNat D : ℚ) + (digitsToNat fr : ℚ) / 10 ^ fr.length) := by
  have hdot : ¬ Char.isDigit '.' = true := by decide
  have ht : (D ++ '.' :: fr).takeWhile Char.isDigit = D := by
    rw [takeWhile_append_all Char.isDigit D _ hd, List.takeWhile_cons_of_neg hdot,
      List.append_nil]
  have hdw : (D ++ '.' :: fr).dropWhile Char.isDigit = '.' :: fr := by
    rw [dropWhile_append_all Char.isDigit D _ hd, List.dropWhile_cons_of_neg hdot]
  unfold pyFloatCore?
  simp only [parseMantissa?, ht, hdw, if_true]
  simp only [takeWhile_all_pos Char.isDigit fr hfr,
    dropWhile_all_pos Char.isDigit fr hfr]
  rw [if_neg (fun hand => hne hand.1)]
  simp only [parseExp?]
  norm_num

/-- Helper: the sanitizer pipeline on a cleaned digit string. -/
theorem pyFloat_digits_only (D : List Char) (hne : D ≠ [])
    (hd : ∀ c ∈ D, c.isDigit = true) :
    pyFloatOfChars? D = some ((digitsToNat D : ℚ)) := by
  cases D with
  | nil => exact absurd rfl hne
  | cons c r =>
    have hcd : c.isDigit = true := hd c (List.mem_cons_self c r)
    have hc1 : ¬ c = '+' := by
      intro hcc
      subst hcc
      exact absurd hcd (by decide)
    have hc2 : ¬ c = '-' := by
      intro hcc
      subst hcc
      exact absurd hcd (by decide)
    simp only [pyFloatOfChars?,
      trim_eq_self_of_no_space (c :: r)
        (fun x hx => isDigit_not_space x (hd x hx))]
    rw [if_neg hc1, if_neg hc2]
    exact pyFloatCore_digits (c :: r) hne hd

/-- Helper: the sanitizer pipeline on a cleaned decimal string. -/
theorem pyFloat_digits_frac (D fr : List Char) (hne : D ≠ [])
    (hd : ∀ c ∈ D, c.isDigit = true) (hfr : ∀ c ∈ fr, c.isDigit = true) :
    pyFloatOfChars? (D ++ '.' :: fr) =
      some ((digitsToNat D : ℚ) + (digitsToNat fr : ℚ) / 10 ^ fr.length) := by
  have hnos : ∀ x ∈ D ++ '.' :: fr, isSpace x = false := by
    intro x hx
    rcases List.mem_append.mp hx with hx | hx
    · exact isDigit_not_space x (hd x hx)
    · rcases List.mem_cons.mp hx with rfl | hx
      · decide
      · exact isDigit_not_space x (hfr x hx)
  obtain ⟨c, r, hD⟩ : ∃ c r, D = c :: r := by
    cases D with
    | nil => exact absurd rfl hne
    | cons c r => exact ⟨c, r, rfl⟩
  have hcd : c.isDigit = true := by
    apply hd
    rw [hD]
    exact List.mem_cons_self c r
  have hc1 : ¬ c = '+' := by
    intro hcc
    subst hcc
    exact absurd hcd (by decide)
  have hc2 : ¬ c = '-' := by
    intro hcc
    subst hcc
    exact absurd hcd (by decide)
  have hshape : D ++ '.' :: fr = c :: (r ++ '.' :: fr) := by
    rw [hD]
    rfl
  have hnos2 : ∀ x ∈ c :: (r ++ '.' :: fr), isSpace x = false := by
    rw [← hshape]
    exact hnos
  simp only [pyFloatOfChars?, hshape, trim_eq_self_of_no_space _ hnos2]
  rw [if_neg hc1, if_neg hc2]
  rw [← hshape]
  exact pyFloatCore_digits_frac D fr hne hd hfr

/-- Helper: every string of the claimed shape is parsed by the
sanitizer pipeline to exactly its decimal value. -/
theorem specShaped_sanitize (s : List Char) (v : ℚ)
    (h : specShapedPrice? s = some v) :
    sanitize_price (PyVal.vstr s) = v := by
  obtain ⟨w1, w2, hdecomp, hw1, hw2⟩ := trim_decomp s
  simp only [specShapedPrice?] at h
  cases hip : specIntPart? (dropDollar (trimChars s)) with
  | none =>
    rw [hip] at h
    exact absurd h (by simp)
  | some nr =>
    obtain ⟨n, rest⟩ := nr
    rw [hip] at h
    obtain ⟨gs, hgs, hne, hdig, hval⟩ := specIntPart_sound _ _ _ hip
    have hdd : removeMoney (trimChars s) = removeMoney (dropDollar (trimChars s)) := by
      cases ht : trimChars s with
      | nil => rfl
      | cons c r =>
        simp only [dropDollar]
        by_cases hc : c = '$'
        · rw [if_pos hc, removeMoney_cons, if_pos (by rw [hc]; decide)]
        · rw [if_neg hc]
    have hrs : removeMoney s = w1 ++ removeMoney (trimChars s) ++ w2 := by
      conv_lhs => rw [hdecomp]
      rw [removeMoney_append, removeMoney_append, removeMoney_of_spaces w1 hw1,
        removeMoney_of_spaces w2 hw2]
    cases rest with
    | nil =>
      simp only [specFrac?, Option.some.injEq] at h
      subst h
      have hgs' : dropDollar (trimChars s) = gs := by
        rw [hgs, List.append_nil]
      have hclean : trimChars (removeMoney s) = removeMoney gs := by
        rw [hrs, hdd, hgs']
        exact trim_sandwich w1 _ w2 hw1 hw2
          (fun c hc => isDigit_not_space c (hdig c hc))
      simp only [sanitize_price, hclean]
      rw [pyFloat_digits_only _ hne hdig, hval]
      rfl
    | cons c fr =>
      simp only [specFrac?] at h
      by_cases hcdot : c = '.'
      · subst hcdot
        rw [if_pos rfl] at h
        by_cases hfrok : fr ≠ [] ∧ fr.all Char.isDigit
        · rw [if_pos hfrok] at h
          simp only [Option.some.injEq] at h
          subst h
          have hfrd : ∀ x ∈ fr, x.isDigit = true := by
            intro x hx
            exact List.all_eq_true.mp hfrok.2 x hx
          have hclean : trimChars (removeMoney s) =
              removeMoney gs ++ '.' :: fr := by
            rw [hrs, hdd, hgs, removeMoney_append]
            have hdotfr : removeMoney ('.' :: fr) = '.' :: fr := by
              apply removeMoney_of_no_money
              intro x hx
              rcases List.mem_cons.mp hx with rfl | hx
              · decide
              · exact isDigit_not_money x (hfrd x hx)
            rw [hdotfr]
            apply trim_sandwich w1 _ w2 hw1 hw2
            intro x hx
            rcases List.mem_append.mp hx with hx | hx
            · exact isDigit_not_space x (hdig x hx)
            · rcases List.mem_cons.mp hx with rfl | hx
              · decide
              · exact isDigit_not_space x (hfrd x hx)
          simp only [sanitize_price, hclean]
          rw [pyFloat_digits_frac _ fr hne hdig hfrd, hval]
          rfl
        · rw [if_neg hfrok] at h
          exact absurd h (by simp)
      · rw [if_neg hcdot] at h
        exact absurd h (by simp)

/-- C8 counterexample: "2,5" is not of the claimed shape (the comma is
not a proper thousands separator), so the claim requires 0.0, yet the
sanitizer returns 25.0: the code removes every comma wherever it
occurs before parsing. -/
theorem sanitize_price_claim_counterexample :
    specShapedPrice? txt25 = Option.none ∧
    sanitize_price (PyVal.vstr txt25) = 25 ∧ (25 : ℚ) ≠ 0 := by
  refine ⟨by rfl, ?_, by norm_num⟩
  simp +decide [sanitize_price, pyFloatOfChars?, pyFloatCore?, parseMantissa?,
    parseExp?, trimChars, removeMoney, isMoneyChar, isSpace, digitsToNat,
    digitVal, txt25]

/-- C8 (amended): the sanitizer returns float(x) for every numeric
input, parses every string of the claimed shape (optional dollar sign,
proper thousands-comma separators and surrounding whitespace around a
decimal number) to exactly that number, and returns 0.0 for None,
lists, dicts, and for every string whose dollar/comma-stripped trim
does not parse as a float literal.  (Unlike the claim, a string
outside the claimed shape may still parse, since the code deletes all
dollars and commas wherever they occur: "2,5" gives 25.0, not 0.0.) -/
theorem sanitize_price_contract :
    (∀ n : ℤ, sanitize_price (PyVal.vint n) = (n : ℚ)) ∧
    (∀ q : ℚ, sanitize_price (PyVal.vfloat q) = q) ∧
    (∀ (s : List Char) (v : ℚ), specShapedPrice? s = some v →
      sanitize_price (PyVal.vstr s) = v) ∧
    (∀ s : List Char, pyFloatOfChars? (trimChars (removeMoney s)) = Option.none →
      sanitize_price (PyVal.vstr s) = 0) ∧
    sanitize_price PyVal.vnone = 0 ∧
    (∀ xs, sanitize_price (PyVal.vlist xs) = 0) ∧
    (∀ kvs, sanitize_price (PyVal.vdict kvs) = 0) := by
  refine ⟨fun n => rfl, fun q => rfl, specShaped_sanitize, ?_, rfl,
    fun xs => rfl, fun kvs => rfl⟩
  intro s h
  simp [sanitize_price, h]

/-- Witness for C8 at the spec scenario: " $64,000.50 " parses to
64000.50 and "$60,000" to 60000.0 exactly. -/
theorem sanitize_price_contract_witness :
    sanitize_price (PyVal.vstr txt64k) = 64000 + 50 / 100 ∧
    sanitize_price (PyVal.vstr txt60k) = 60000 := by
  constructor
  · exact sanitize_price_contract.2.2.1 txt64k (64000 + 50 / 100)
      (by
        simp +decide [specShapedPrice?, specIntPart?, specGroups?, specFrac?,
          dropDollar, trimChars, isSpace, digitsToNat, digitVal, txt64k,
          headNotDigit]
        norm_num)
  · exact sanitize_price_contract.2.2.1 txt60k 60000
      (by
        simp +decide [specShapedPrice?, specIntPart?, specGroups?, specFrac?,
          dropDollar, trimChars, isSpace, digitsToNat, digitVal, txt60k,
          headNotDigit])

/-- Python exception kinds that execute_strategy can raise. -/
inductive PyErr where
  | valueError
  | typeError
  | attributeError
deriving DecidableEq, Repr

/-- Python truthiness (bool(x)). -/
def pyTruthy : PyVal → Bool
  | PyVal.vint n => n ≠ 0
  | PyVal.vfloat q => q ≠ 0
  | PyVal.vstr s => s ≠ []
  | PyVal.vnone => false
  | PyVal.vlist xs => !xs.isEmpty
  | PyVal.vdict kvs => !kvs.isEmpty

/-- Python `x or y`. -/
def pyOr (a b : PyVal) : PyVal := if pyTruthy a then a else b

/-- The float(x) builtin: numbers pass through, strings must parse as a
float literal (ValueError otherwise), other types raise TypeError. -/
def pyFloatBuiltin : PyVal → Except PyErr ℚ
  | PyVal.vint n => Except.ok (n : ℚ)
  | PyVal.vfloat q => Except.ok q
  | PyVal.vstr s =>
    match pyFloatOfChars? s with
    | some v => Except.ok v
    | Option.none => Except.error PyErr.valueError
  | PyVal.vnone => Except.error PyErr.typeError
  | PyVal.vlist _ => Except.error PyErr.typeError
  | PyVal.vdict _ => Except.error PyErr.typeError

/-- dict.get(key, default). -/
def dictGet (kvs : List (List Char × PyVal)) (key : List Char)
    (dflt : PyVal) : PyVal :=
  match kvs with
  | [] => dflt
  | (k, v) :: rest => if k = key then v else dictGet rest key dflt

/-- Plain key lookup, used to state what dict.get defaults on. -/
def dictFind (kvs : List (List Char × PyVal)) (key : List Char) : Option PyVal :=
  match kvs with
  | [] => Option.none
  | (k, v) :: rest => if k = key then some v else dictFind rest key

/-- str.upper() (ASCII). -/
def pyUpper (s : List Char) : List Char := s.map Char.toUpper

/-- str(x) as used on the action field.  Scalars follow CPython; the
repr of containers is stubbed (no theorem below applies str() to a
container). -/
def pyStrOf : PyVal → List Char
  | PyVal.vstr s => s
  | PyVal.vint n => (toString n).data
  | PyVal.vfloat q => (toString q).data
  | PyVal.vnone => "None".data
  | PyVal.vlist _ => "[...]".data
  | PyVal.vdict _ => "{...}".data

/-- Dictionary keys and fixed strings of execute_strategy. -/
def keyAction : List Char := "action".data

def keyTradeParams : List Char := "trade_params".data

def keySymbol : List Char := "symbol".data

def keyEntryPrice : List Char := "entry_price".data

def keyStopLoss : List Char := "stop_loss".data

def keyTakeProfit : List Char := "take_profit".data

def keyTrailing : List Char := "trailing_stop_percent".data

def keyScaling : List Char := "scaling_targets".data

def strWait : List Char := "WAIT".data

def strBUY : List Char := "BUY".data

def strSELL : List Char := "SELL".data

def strBTCUSDT : List Char := "BTCUSDT".data

/-- Prefix test for the substring check below. -/
def listStartsWith (pat l : List Char) : Bool :=
  match pat, l with
  | [], _ => true
  | _ :: _, [] => false
  | p :: ps, c :: cs => p = c && listStartsWith ps cs

/-- Python `pat in l` on strings: pat occurs contiguously in l. -/
def containsSubstr (l pat : List Char) : Bool :=
  match l with
  | [] => listStartsWith pat []
  | _ :: rest => listStartsWith pat l || containsSubstr rest pat

/-- Result messages of execute_strategy (formatting not modelled). -/
inductive ExecMsg where
  | invalidEntryPrice
  | insufficientAccountBalance
  | notEnoughForTrade
  | actionNotRecognized
  | engine (m : TradeMsg)
deriving DecidableEq, Repr

/-- Line 75 of wallet.py: params.get('symbol', 'BTCUSDT').replace('/', '');
a non-string symbol raises AttributeError on .replace. -/
def execSymbol (params : List (List Char × PyVal)) : Except PyErr (List Char) :=
  match dictGet params keySymbol (PyVal.vstr strBTCUSDT) with
  | PyVal.vstr s => Except.ok (s.filter (fun c => c ≠ '/'))
  | _ => Except.error PyErr.attributeError

/-- Lines 104-117 of wallet.py: attach the sanitized automated-order
parameters to the freshly traded position.  float() on the raw
trailing_stop_percent value can raise; in Python the stop-loss and
take-profit fields written just before the raise persist, which no
claim observes, so the error simply propagates here. -/
def attachOrders (w1 : Wallet) (symbol : List Char)
    (params : List (List Char × PyVal)) : Except PyErr Wallet :=
  match lookupPos w1.positions symbol with
  | Option.none => Except.ok w1
  | some pos =>
    match pyFloatBuiltin (pyOr (dictGet params keyTrailing PyVal.vnone)
        (PyVal.vint 0)) with
    | Except.error e => Except.error e
    | Except.ok tslRaw =>
      let slv := sanitize_price (dictGet params keyStopLoss PyVal.vnone)
      let tpv := sanitize_price (dictGet params keyTakeProfit PyVal.vnone)
      let targets : List ℚ :=
        match dictGet params keyScaling (PyVal.vlist []) with
        | PyVal.vlist ts => (ts.map sanitize_price).filter (fun t => t > 0)
        | _ => []
      let pos' : Position :=
        { pos with
          stop_loss := if slv = 0 then Option.none else some slv,
          take_profit := if tpv = 0 then Option.none else some tpv,
          trailing_stop_percent := if tslRaw = 0 then Option.none else some tslRaw,
          scaling_targets := targets }
      Except.ok { w1 with positions := setPos w1.positions symbol pos' }

/-- PaperWallet.execute_strategy (wallet.py lines 71-119). -/
def execute_strategy (w : Wallet) (strategy : PyVal)
    (override_usd : Option ℚ) : Except PyErr (Bool × ExecMsg × Wallet) :=
  match strategy with
  | PyVal.vdict skvs =>
    let action_raw := pyUpper (pyStrOf (dictGet skvs keyAction (PyVal.vstr strWait)))
    match dictGet skvs keyTradeParams (PyVal.vdict []) with
    | PyVal.vdict params =>
      match execSymbol params with
      | Except.error e => Except.error e
      | Except.ok symbol =>
        let price := sanitize_price (dictGet params keyEntryPrice (PyVal.vint 0))
        if price ≤ 0 then Except.ok (false, ExecMsg.invalidEntryPrice, w)
        else if w.balance_usd ≤ 0 then
          Except.ok (false, ExecMsg.insufficientAccountBalance, w)
        else
          let usd_amount := override_usd.getD (w.balance_usd * (1 / 10))
          if usd_amount > w.balance_usd ∧ containsSubstr action_raw strBUY then
            Except.ok (false, ExecMsg.notEnoughForTrade, w)
          else
            let amount := usd_amount / price
            let res : Bool × ExecMsg × Wallet :=
              if containsSubstr action_raw strBUY then
                let r := buy w symbol price amount
                (r.1, ExecMsg.engine r.2.1, r.2.2)
              else if containsSubstr action_raw strSELL then
                let r := sell w symbol price amount
                (r.1, ExecMsg.engine r.2.1, r.2.2)
              else (false, ExecMsg.actionNotRecognized, w)
            if res.1 then
              match attachOrders res.2.2 symbol params with
              | Except.error e => Except.error e
              | Except.ok w2 => Except.ok (res.1, res.2.1, w2)
            else Except.ok res
    | _ => Except.error PyErr.attributeError
  | _ => Except.error PyErr.attributeError

/-- The strategy object refuting the no-exception claim: a valid BUY
with a currency-formatted trailing_stop_percent. -/
def stratBadTrailing : PyVal :=
  PyVal.vdict [(keyAction, PyVal.vstr strBUY),
    (keyTradeParams, PyVal.vdict
      [(keyEntryPrice, PyVal.vint 100),
       (keyTrailing, PyVal.vstr ['$', '2'])])]

/-- C7: executing a valid BUY strategy whose trailing_stop_percent is
the string "$2" raises ValueError: line 108 of wallet.py applies the
bare float() builtin to the raw value instead of _sanitize_price (as
the neighbouring stop_loss/take_profit lines do), and float("$2") is
unparseable.  This contradicts the spec, which requires all failures
of the untrusted strategy object to surface as a (bool, message) pair
and never as an exception. -/
theorem execute_strategy_trailing_raises :
    execute_strategy defaultWallet stratBadTrailing Option.none =
      Except.error PyErr.valueError := by
  simp +decide [execute_strategy, stratBadTrailing, dictGet, execSymbol,
    sanitize_price, attachOrders, pyFloatBuiltin, pyOr, pyTruthy,
    pyFloatOfChars?, pyFloatCore?, parseMantissa?, parseExp?, trimChars,
    isSpace, removeMoney, isMoneyChar, pyUpper, pyStrOf, containsSubstr,
    listStartsWith, buy, effPos, lookupPos, setPos, recordTrade, freshPos,
    dust, defaultWallet, keyAction, keyTradeParams, keySymbol, keyEntryPrice,
    keyStopLoss, keyTakeProfit, keyTrailing, keyScaling, strBUY, strWait,
    strBTCUSDT]
  norm_num
  simp +decide [attachOrders, lookupPos, dictGet, pyFloatBuiltin, pyOr,
    pyTruthy, sanitize_price, pyFloatOfChars?, pyFloatCore?, parseMantissa?,
    parseExp?, trimChars, isSpace, removeMoney, isMoneyChar, keyTrailing,
    keyStopLoss, keyTakeProfit, keyScaling, setPos]

/-- Helper: dict.get falls back to the default when the key is absent. -/
theorem dictGet_of_find_none (kvs : List (List Char × PyVal))
    (key : List Char) (d : PyVal) (h : dictFind kvs key = Option.none) :
    dictGet kvs key d = d := by
  induction kvs with
  | nil => rfl
  | cons kv rest ih =>
    obtain ⟨k, v⟩ := kv
    simp only [dictFind] at h
    simp only [dictGet]
    by_cases hk : k = key
    · rw [if_pos hk] at h
      exact absurd h (by simp)
    · rw [if_neg hk] at h
      rw [if_neg hk]
      exact ih h

/-- Helper: dict.get returns the stored value when the key is present. -/
theorem dictGet_of_find_some (kvs : List (List Char × PyVal))
    (key : List Char) (d v : PyVal) (h : dictFind kvs key = some v) :
    dictGet kvs key d = v := by
  induction kvs with
  | nil => exact absurd h (by simp [dictFind])
  | cons kv rest ih =>
    obtain ⟨k, u⟩ := kv
    simp only [dictFind] at h
    simp only [dictGet]
    by_cases hk : k = key
    · rw [if_pos hk] at h
      rw [if_pos hk]
      exact Option.some.inj h
    · rw [if_neg hk] at h
      rw [if_neg hk]
      exact ih h

/-- Position amount at a symbol after a successful strategy execution
(None if the execution failed or raised). -/
def tradedAmountAt (r : Except PyErr (Bool × ExecMsg × Wallet))
    (sym : List Char) : Option ℚ :=
  match r with
  | Except.ok (true, _, w') => (lookupPos w'.positions sym).map Position.amount
  | _ => Option.none

/-- Strategy with no trade_params.symbol at all. -/
def stratNoSymbol : PyVal :=
  PyVal.vdict [(keyAction, PyVal.vstr strBUY),
    (keyTradeParams, PyVal.vdict [(keyEntryPrice, PyVal.vint 100)])]

/-- The symbol string "BTC/USDT". -/
def symSlash : List Char := "BTC/USDT".data

/-- C10: a strategy without trade_params.symbol trades against the
default "BTCUSDT" (shown both for the symbol computation of line 75
and end to end: the fresh wallet ends up with a BTCUSDT position of
10% of balance / price = 10), a provided symbol string has every '/'
stripped before use, and get_position looks positions up under the
slash-stripped key. -/
theorem default_symbol_and_slash_strip :
    (∀ params : List (List Char × PyVal),
      dictFind params keySymbol = Option.none →
      execSymbol params = Except.ok strBTCUSDT) ∧
    (∀ (params : List (List Char × PyVal)) (s : List Char),
      dictFind params keySymbol = some (PyVal.vstr s) →
      execSymbol params = Except.ok (s.filter (fun c => c ≠ '/'))) ∧
    (∀ (w : Wallet) (s : List Char),
      get_position w s =
        ((lookupPos w.positions (s.filter (fun c => c ≠ '/'))).getD
          { amount := 0 }).amount) ∧
    tradedAmountAt (execute_strategy defaultWallet stratNoSymbol Option.none)
      strBTCUSDT = some 10 := by
  refine ⟨?_, ?_, fun w s => rfl, ?_⟩
  · intro params h
    unfold execSymbol
    rw [dictGet_of_find_none params keySymbol _ h]
    have hf : strBTCUSDT.filter (fun c => c ≠ '/') = strBTCUSDT := by decide
    simp only [hf]
  · intro params s h
    unfold execSymbol
    rw [dictGet_of_find_some params keySymbol _ _ h]
  · simp +decide [tradedAmountAt, execute_strategy, stratNoSymbol, dictGet,
      execSymbol, sanitize_price, attachOrders, pyFloatBuiltin, pyOr, pyTruthy,
      pyUpper, pyStrOf, containsSubstr, listStartsWith, buy, effPos,
      lookupPos, setPos, recordTrade, freshPos, dust, defaultWallet,
      keyAction, keyTradeParams, keySymbol, keyEntryPrice, keyStopLoss,
      keyTakeProfit, keyTrailing, keyScaling, strBUY, strWait, strBTCUSDT]
    norm_num
    simp +decide [lookupPos, setPos]

/-- Witness for C10: an empty params dict falls back to "BTCUSDT", and
"BTC/USDT" is slash-stripped. -/
theorem default_symbol_and_slash_strip_witness :
    execSymbol [] = Except.ok strBTCUSDT ∧
    execSymbol [(keySymbol, PyVal.vstr symSlash)] =
      Except.ok (symSlash.filter (fun c => c ≠ '/')) :=
  ⟨default_symbol_and_slash_strip.1 [] rfl,
   default_symbol_and_slash_strip.2.1 [(keySymbol, PyVal.vstr symSlash)]
     symSlash rfl⟩
